import Mathlib

/-!
Shallow embedding of the report-normalization core of the repository
(`reports.js`: line splitting, section classification, workforce and
material extraction, aggregation, reconciliation) together with the
relevant part of `ai.js` (shape of the external classification).

JS strings are modelled as `List Char` over the alphabet actually used by
the program (ASCII plus the German letters and the few symbols appearing
in the source regexes).  JS regexes are hand-translated into character
scanners that mirror the original semantics (leftmost match, greedy
quantifiers with the backtracking behaviour of the concrete pattern,
ECMAScript word boundaries where `\w = [A-Za-z0-9_]`, case-insensitive
matching via simple case folding of the alphabet, and the `lastIndex`
behaviour of global regexes).  JS numbers produced by the pipeline are
modelled as `ℚ` (they are decimal literals), `null` as `Option`.
-/

namespace Report

/-- JS strings, as lists of characters. -/
abbrev Str := List Char

/-- The whitespace characters relevant for `\s`, `trim` and friends. -/
def isWS (c : Char) : Bool := c = ' ' || c = '\t' || c = '\n' || c = '\r'

/-- ASCII digit, `\d`. -/
def isDigitC (c : Char) : Bool := '0' ≤ c && c ≤ '9'

def isAsciiLower (c : Char) : Bool := 'a' ≤ c && c ≤ 'z'

def isAsciiUpper (c : Char) : Bool := 'A' ≤ c && c ≤ 'Z'

/-- ECMAScript `\w` (no unicode extension): ASCII letters, digits, `_`. -/
def isWordC (c : Char) : Bool := isAsciiLower c || isAsciiUpper c || isDigitC c || c = '_'

/-- `String.prototype.toLowerCase` on the alphabet used by the program. -/
def lowerC (c : Char) : Char :=
  if isAsciiUpper c then Char.ofNat (c.toNat + 32)
  else if c = 'Ä' then 'ä' else if c = 'Ö' then 'ö' else if c = 'Ü' then 'ü' else c

def lowerStr (s : Str) : Str := s.map lowerC

/-- Case-insensitive character comparison (simple case folding, `/i`). -/
def eqCI (a b : Char) : Bool := lowerC a = lowerC b

/-- German lowercase letters `[a-zäöüß]` (case-sensitive form). -/
def isLowerDE (c : Char) : Bool := isAsciiLower c || c = 'ä' || c = 'ö' || c = 'ü' || c = 'ß'

/-- German uppercase letters (the `\p{Lu}` instances reachable in our alphabet). -/
def isUpperDE (c : Char) : Bool := isAsciiUpper c || c = 'Ä' || c = 'Ö' || c = 'Ü'

/-- `\p{L}` restricted to the program's alphabet. -/
def isLetterDE (c : Char) : Bool := isLowerDE c || isUpperDE c

def dropWhileWS (s : Str) : Str := s.dropWhile isWS

/-- `String.prototype.trim`. -/
def trimStr (s : Str) : Str :=
  ((dropWhileWS s).reverse.dropWhile isWS).reverse

/-- Splitting a string into its maximal whitespace-free words. -/
def wordsAux : Str → Str → List Str
  | acc, [] => if acc = [] then [] else [acc.reverse]
  | acc, c :: rest =>
    if isWS c then
      if acc = [] then wordsAux [] rest else acc.reverse :: wordsAux [] rest
    else wordsAux (c :: acc) rest

def wordsOf (s : Str) : List Str := wordsAux [] s

def unwords : List Str → Str
  | [] => []
  | [w] => w
  | w :: ws => w ++ ' ' :: unwords ws

/-- `.replace(/\s+/g, " ").trim()` — collapse whitespace runs, drop ends. -/
def collapseWS (s : Str) : Str := unwords (wordsOf s)

/-- The punctuation class of `normalizeTextForCompare`: `[.,;:()•·]`. -/
def isComparePunct (c : Char) : Bool :=
  c = '.' || c = ',' || c = ';' || c = ':' || c = '(' || c = ')' || c = '•' || c = '·'

/-- `normalizeTextForCompare`: lowercase, punctuation → space, collapse `\s+`, trim. -/
def normalizeTextForCompare (s : Str) : Str :=
  collapseWS ((lowerStr s).map (fun c => if isComparePunct c then ' ' else c))

/-- Whether `needle` occurs as a contiguous substring of `hay` (`String.includes`). -/
def includesStr (hay needle : Str) : Bool :=
  (List.range (hay.length + 1)).any (fun i => needle.isPrefixOf (hay.drop i))

/-- Split on every occurrence of one character (JS `split(";")`-style: keeps empties). -/
def splitOnChar (sep : Char) (s : Str) : List Str :=
  s.foldr (fun c acc =>
    match acc with
    | [] => if c = sep then [[], []] else [[c]]
    | piece :: rest => if c = sep then [] :: piece :: rest else (c :: piece) :: rest) [[]]

/-- Split on maximal nonempty runs of characters satisfying `p`
(JS `split(/[.!?]+/g)`-style); fuel-driven structural recursion. -/
def splitOnRunsGo (p : Char → Bool) : ℕ → Str → List Str
  | 0, _ => [[]]
  | _ + 1, [] => [[]]
  | fuel + 1, c :: rest =>
    if p c then
      let rest' := rest.dropWhile p
      if rest' = [] then [[], []]
      else [] :: splitOnRunsGo p fuel rest'
    else
      match splitOnRunsGo p fuel rest with
      | [] => [[c]]
      | piece :: pieces => (c :: piece) :: pieces

def splitOnRuns (p : Char → Bool) (s : Str) : List Str :=
  splitOnRunsGo p s.length s

/-- Decimal digits of a natural number, most significant first. -/
def digitChar (n : ℕ) : Char :=
  match n with
  | 0 => '0' | 1 => '1' | 2 => '2' | 3 => '3' | 4 => '4'
  | 5 => '5' | 6 => '6' | 7 => '7' | 8 => '8' | _ => '9'

def natToStrGo : ℕ → ℕ → Str
  | 0, _ => []
  | fuel + 1, n =>
    if n < 10 then [digitChar n]
    else natToStrGo fuel (n / 10) ++ [digitChar (n % 10)]

def natToStr (n : ℕ) : Str := natToStrGo (n + 1) n

/-- Numeric value of a digit string (used only to reason about `natToStr`). -/
def strVal (s : Str) : ℕ := s.foldl (fun a c => 10 * a + (c.toNat - 48)) 0

/-- Value of a digit list as a natural number (for number parsing). -/
def digitsValNat (s : Str) : ℕ := strVal s

/-- JS `Number` on the strings produced by the `\d+(?:[.,]\d+)?` captures of this
module, after the `replace(",", ".")` of `normalizeHoursValue`: an integer part,
optionally a decimal point and a fractional part.  Anything else yields `none`
(JS: `NaN`, which `normalizeHoursValue` maps to `null`). -/
def parseNum (s : Str) : Option ℚ :=
  let ds := s.takeWhile isDigitC
  if ds = [] then none
  else
    match s.drop ds.length with
    | [] => some (digitsValNat ds : ℚ)
    | c :: rest =>
      if (c = '.' || c = ',') && rest ≠ [] && rest.all isDigitC then
        -- the decimal value `ds + rest / 10^|rest|`, written with `mkRat` so
        -- that the kernel can evaluate it
        some (mkRat (digitsValNat ds * 10 ^ rest.length + digitsValNat rest) (10 ^ rest.length))
      else none

/-- `normalizeHoursValue` applied to an already-numeric-or-null JS value
(`null → null`, a finite number maps to itself). -/
def normalizeHoursValueQ (v : Option ℚ) : Option ℚ := v

/-- Rational addition in a form the kernel can evaluate (used for the numeric
`+=` of the aggregation loop); equal to `+` by `addQ_eq_add`. -/
def addQ (a b : ℚ) : ℚ := mkRat (a.num * (b.den : ℤ) + b.num * (a.den : ℤ)) (a.den * b.den)

theorem addQ_eq_add (a b : ℚ) : addQ a b = a + b := by
  unfold addQ
  rw [Rat.add_def, Rat.normalize_eq_mkRat]

/-! ### Regex scanning framework -/

/-- ECMAScript `\b` between an optional previous and an optional next character:
a boundary holds iff exactly one side is a `\w` character. -/
def boundary (prev next : Option Char) : Bool :=
  (match prev with | none => false | some c => isWordC c) !=
  (match next with | none => false | some c => isWordC c)

/-- `\b` holds just after a character `lc`, looking at the rest of the string. -/
def boundaryAfter (lc : Char) (rest : Str) : Bool := boundary (some lc) rest.head?

/-- The next character is absent or not a word character (common `…\b` check
after a pattern ending in a word character). -/
def nextNonWord : Str → Bool
  | [] => true
  | c :: _ => !isWordC c

def nextIsWord : Str → Bool
  | [] => false
  | c :: _ => isWordC c

/-- Case-insensitive literal prefix match (`pat` given in lowercase). -/
def ciStarts : Str → Str → Bool
  | [], _ => true
  | _ :: _, [] => false
  | p :: ps, c :: cs => lowerC c = p && ciStarts ps cs

/-- Length of the leading whitespace run (`\s*`). -/
def wsLen (s : Str) : ℕ := (s.takeWhile isWS).length

/-- Test a position-wise matcher at every position of the string (`RegExp.test`
for a pattern with no `g`-relevant state), threading the previous character for
word-boundary checks.  The position at end-of-string is included. -/
def testScanAux (f : Option Char → Str → Bool) : Option Char → Str → Bool
  | prev, [] => f prev []
  | prev, c :: rest => f prev (c :: rest) || testScanAux f (some c) rest

def testScan (f : Option Char → Str → Bool) (s : Str) : Bool := testScanAux f none s

/-- `String.prototype.search`: index of the leftmost position where the
matcher succeeds. -/
def searchAux (f : Option Char → Str → Bool) : ℕ → Option Char → Str → Option ℕ
  | i, prev, [] => if f prev [] then some i else none
  | i, prev, c :: rest =>
    if f prev (c :: rest) then some i else searchAux f (i + 1) (some c) rest

def searchStr (f : Option Char → Str → Bool) (s : Str) : Option ℕ := searchAux f 0 none s

/-- First (leftmost) match of a capturing matcher (`String.prototype.match`
without the `g` flag). -/
def findFirstAux (f : Option Char → Str → Option α) : Option Char → Str → Option α
  | prev, [] => f prev []
  | prev, c :: rest =>
    match f prev (c :: rest) with
    | some a => some a
    | none => findFirstAux f (some c) rest

def findFirstStr (f : Option Char → Str → Option α) (s : Str) : Option α :=
  findFirstAux f none s

/-- All matches of a global regex (`regex.exec` loop): leftmost match, then
resume scanning at the end of the matched text (`lastIndex`).  The matcher
returns a value and the total length of the match (always ≥ 1 here). -/
def scanGAux (f : Option Char → Str → Option (α × ℕ)) : ℕ → Option Char → Str → List α
  | 0, _, _ => []
  | _ + 1, _, [] => []
  | fuel + 1, prev, c :: rest =>
    match f prev (c :: rest) with
    | some (a, n) =>
      let m := max n 1
      a :: scanGAux f fuel (((c :: rest).take m).getLast?) ((c :: rest).drop m)
    | none => scanGAux f fuel (some c) rest

def scanG (f : Option Char → Str → Option (α × ℕ)) (s : Str) : List α :=
  scanGAux f s.length none s

/-- Global replace (`String.prototype.replace` with a `g` regex): each match is
replaced, scanning resumes after the matched source text; positions between
matches are copied.  Word-boundary checks use the source characters. -/
def replaceScanAux (f : Option Char → Str → Option (Str × ℕ)) : ℕ → Option Char → Str → Str
  | 0, _, s => s
  | _ + 1, _, [] => []
  | fuel + 1, prev, c :: rest =>
    match f prev (c :: rest) with
    | some (rep, n) =>
      let m := max n 1
      rep ++ replaceScanAux f fuel (((c :: rest).take m).getLast?) ((c :: rest).drop m)
    | none => c :: replaceScanAux f fuel (some c) rest

def replaceScan (f : Option Char → Str → Option (Str × ℕ)) (s : Str) : Str :=
  replaceScanAux f s.length none s

/-! ### Number-word replacement (`replaceNumberWords`) -/

/-- The alternatives of `NUMBER_WORD_REGEX`, in source order, with the digit
string that `NUMBER_WORDS[normalizeNumberWord(match)]` produces for each. -/
def numberWordTable : List (Str × Str) :=
  [("eins".data, "1".data), ("eine".data, "1".data), ("ein".data, "1".data),
   ("einen".data, "1".data), ("einem".data, "1".data), ("einer".data, "1".data),
   ("zwei".data, "2".data), ("drei".data, "3".data), ("vier".data, "4".data),
   ("fuenf".data, "5".data), ("fünf".data, "5".data), ("sechs".data, "6".data),
   ("sieben".data, "7".data), ("acht".data, "8".data), ("neun".data, "9".data),
   ("zehn".data, "10".data), ("elf".data, "11".data), ("zwoelf".data, "12".data),
   ("zwölf".data, "12".data)]

/-- One position of `NUMBER_WORD_REGEX` (`\b(eins|…|zwölf)\b`, `/gi`): the first
alternative (in source order) that matches with a trailing boundary wins. -/
def numberWordAt (prev : Option Char) (s : Str) : Option (Str × ℕ) :=
  if !boundary prev s.head? then none
  else
    numberWordTable.findSome? (fun (w, rep) =>
      if ciStarts w s && nextNonWord (s.drop w.length) then some (rep, w.length) else none)

/-- `replaceNumberWords`. -/
def replaceNumberWords (text : Str) : Str := replaceScan numberWordAt text

/-! ### Hour expressions -/

/-- `\d+(?:[.,]\d+)?` (greedy): capture and length. -/
def matchNumber (s : Str) : Option (Str × ℕ) :=
  let d := s.takeWhile isDigitC
  if d = [] then none
  else
    match s.drop d.length with
    | [] => some (d, d.length)
    | c :: r2 =>
      if c = '.' || c = ',' then
        let f := r2.takeWhile isDigitC
        if f = [] then some (d, d.length)
        else some (d ++ c :: f, d.length + 1 + f.length)
      else some (d, d.length)

/-- `\d+(?:[.,]\d+)?\b`: like `matchNumber` but with a trailing word boundary;
the optional fraction backtracks when the boundary fails after it (the digits
are then followed by the separator, a non-word character, so the boundary
holds). -/
def matchNumberB (s : Str) : Option (Str × ℕ) :=
  let d := s.takeWhile isDigitC
  if d = [] then none
  else
    match s.drop d.length with
    | [] => some (d, d.length)
    | c :: r2 =>
      if c = '.' || c = ',' then
        let f := r2.takeWhile isDigitC
        if f = [] then some (d, d.length)
        else if nextNonWord (r2.drop f.length) then some (d ++ c :: f, d.length + 1 + f.length)
        else some (d, d.length)
      else if !isWordC c then some (d, d.length)
      else none

/-- `(?:h|std\.?|stunden)\b` (case-insensitive): length consumed.  For `std`,
the greedy optional dot is taken only when a word character follows it (else
the boundary already holds after the `d`, with the dot left unconsumed). -/
def matchHourUnit (s : Str) : Option ℕ :=
  if ciStarts "h".data s then
    if nextNonWord (s.drop 1) then some 1 else none
  else if ciStarts "std".data s then
    if (s.drop 3).head? = some '.' && nextIsWord (s.drop 4) then some 4
    else if nextNonWord (s.drop 3) then some 3
    else none
  else if ciStarts "stunden".data s then
    if nextNonWord (s.drop 7) then some 7 else none
  else none

/-- One position of `(\d+(?:[.,]\d+)?)\s*(?:h|std\.?|stunden)\b` (no leading
`\b` — this is the first regex of `extractHoursInfo`). -/
def hoursCapAt (_prev : Option Char) (s : Str) : Option (Str × ℕ) :=
  match matchNumber s with
  | none => none
  | some (cap, n) =>
    let w := wsLen (s.drop n)
    match matchHourUnit (s.drop (n + w)) with
    | some u => some (cap, n + w + u)
    | none => none

/-- One position of `\b\d+(?:[.,]\d+)?\s*(?:h|std\.?|stunden)\b` (the
`hasHours` test of `isWorkerLine`). -/
def hoursExprAt (prev : Option Char) (s : Str) : Bool :=
  boundary prev s.head? &&
  match matchNumber s with
  | none => false
  | some (_, n) =>
    let w := wsLen (s.drop n)
    (matchHourUnit (s.drop (n + w))).isSome

/-- One position of `\b(?:je|jeweils)\s+(\d+(?:[.,]\d+)?)\b` (the shorthand
fallback of `extractHoursInfo`): tries `je` first, then `jeweils`. -/
def jeNumAt (prev : Option Char) (s : Str) : Option (Str × ℕ) :=
  if !boundary prev s.head? then none
  else
    let tryFrom : ℕ → Option (Str × ℕ) := fun k =>
      let w := wsLen (s.drop k)
      if w = 0 then none
      else
        match matchNumberB (s.drop (k + w)) with
        | some (cap, n) => some (cap, k + w + n)
        | none => none
    if ciStarts "je".data s then
      match tryFrom 2 with
      | some r => some r
      | none => if ciStarts "jeweils".data s then tryFrom 7 else none
    else none

/-- One position of `\bjeweils\b|\bpro\s+person\b|\bje\s*weils\b` (the first
`applyToAll` test of `extractHoursInfo`, run on the original text). -/
def applyWordAt (prev : Option Char) (s : Str) : Bool :=
  boundary prev s.head? &&
  ((ciStarts "jeweils".data s && nextNonWord (s.drop 7))
   || (ciStarts "pro".data s &&
       (let w := wsLen (s.drop 3)
        w ≠ 0 && ciStarts "person".data (s.drop (3 + w)) && nextNonWord (s.drop (3 + w + 6))))
   || (ciStarts "je".data s &&
       (let w := wsLen (s.drop 2)
        ciStarts "weils".data (s.drop (2 + w)) && nextNonWord (s.drop (2 + w + 5)))))

/-- One position of `\bje\s+\d+(?:[.,]\d+)?(?:\s*(?:h|std\.?|stunden))?\b` (the
second `applyToAll` test, run on the number-word-normalized text).  The final
`\b` is satisfied by the unit, directly after the digits, or — when the greedy
fraction fails the boundary — after backtracking the fraction (the following
separator character then provides the boundary). -/
def jeHoursOptUnitAt (prev : Option Char) (s : Str) : Bool :=
  boundary prev s.head? && ciStarts "je".data s &&
  (let w := wsLen (s.drop 2)
   w ≠ 0 &&
   match matchNumber (s.drop (2 + w)) with
   | none => false
   | some (cap, n) =>
     let after := s.drop (2 + w + n)
     (matchHourUnit (after.drop (wsLen after))).isSome
     || nextNonWord after
     || cap.any (fun c => c = '.' || c = ','))

/-- `extractHoursInfo`'s result. -/
structure HoursInfo where
  hours : Option ℚ
  applyToAll : Bool
deriving DecidableEq, Repr

/-- `extractHoursInfo`. -/
def extractHoursInfo (text : Str) : HoursInfo :=
  let normalizedText := replaceNumberWords text
  match findFirstStr hoursCapAt normalizedText with
  | some (cap, _) =>
    { hours := parseNum cap
      applyToAll := testScan applyWordAt text || testScan jeHoursOptUnitAt normalizedText }
  | none =>
    match findFirstStr jeNumAt normalizedText with
    | some (cap, _) => { hours := parseNum cap, applyToAll := true }
    | none => { hours := none, applyToAll := false }

/-! ### Name/hour pairs (`extractNameHourPairs`) -/

/-- Tail characters of a name word: `[\p{L}.'-]` (with the `u` flag). -/
def isNameTail (c : Char) : Bool := isLetterDE c || c = '.' || c = Char.ofNat 39 || c = '-'

/-- `\p{Lu}[\p{L}.'-]+`: one capitalized name word, its length. -/
def matchNameWord (s : Str) : Option ℕ :=
  match s with
  | c :: rest =>
    if isUpperDE c then
      let t := rest.takeWhile isNameTail
      if t = [] then none else some (1 + t.length)
    else none
  | [] => none

/-- Greedy extension `(?:\s+\p{Lu}[\p{L}.'-]+)+` from offset `k`. -/
def nameSeqExtAux : ℕ → Str → ℕ → ℕ
  | 0, _, k => k
  | fuel + 1, s, k =>
    let w := wsLen (s.drop k)
    if w = 0 then k
    else
      match matchNameWord (s.drop (k + w)) with
      | some m => nameSeqExtAux fuel s (k + w + m)
      | none => k

/-- One position of the `extractNameHourPairs` regex
`(\b\p{Lu}[\p{L}.'-]+(?:\s+\p{Lu}[\p{L}.'-]+)+)\s*(?:\(|,|:)?\s*(\d+(?:[.,]\d+)?)\s*(?:h|std\.?|stunden)\b`
(`/giu`).  The greedy name run is deterministic here: a dropped name word can
never satisfy the following optional-punctuation/digit part, so backtracking
inside the name group cannot rescue a failed match. -/
def nameHourPairAt (prev : Option Char) (s : Str) : Option ((Str × Option ℚ) × ℕ) :=
  if !boundary prev s.head? then none
  else
    match matchNameWord s with
    | none => none
    | some n1 =>
      let k := nameSeqExtAux s.length s n1
      if k = n1 then none
      else
        let cap1 := s.take k
        let p1 := k + wsLen (s.drop k)
        let p2 := match s.drop p1 with
          | c :: _ => if c = '(' || c = ',' || c = ':' then p1 + 1 else p1
          | [] => p1
        let p3 := p2 + wsLen (s.drop p2)
        match matchNumber (s.drop p3) with
        | none => none
        | some (num, n) =>
          let p4 := p3 + n
          let p5 := p4 + wsLen (s.drop p4)
          match matchHourUnit (s.drop p5) with
          | some u => some ((trimStr cap1, parseNum num), p5 + u)
          | none => none

/-- `extractNameHourPairs`: all (global) matches, as (trimmed name, hours). -/
def extractNameHourPairs (text : Str) : List (Str × Option ℚ) :=
  scanG nameHourPairAt text

/-! ### `extractNames` -/

/-- One position of `\bvor\s+ort\b` (case-insensitive). -/
def vorOrtAt (prev : Option Char) (s : Str) : Bool :=
  boundary prev s.head? && ciStarts "vor".data s &&
  (let w := wsLen (s.drop 3)
   w ≠ 0 && ciStarts "ort".data (s.drop (3 + w)) && nextNonWord (s.drop (3 + w + 3)))

/-- One position of `\bjeweils\b|\bstunden\b|\bstd\.?\b|\bh\b` (the cut
pattern of `extractNames`). -/
def hoursCueAt (prev : Option Char) (s : Str) : Bool :=
  boundary prev s.head? &&
  ((ciStarts "jeweils".data s && nextNonWord (s.drop 7))
   || (ciStarts "stunden".data s && nextNonWord (s.drop 7))
   || (ciStarts "std".data s &&
       (nextNonWord (s.drop 3) || ((s.drop 3).head? = some '.' && nextIsWord (s.drop 4))))
   || (ciStarts "h".data s && nextNonWord (s.drop 1)))

/-- One position of `\bund\b` (`/gi`), replaced by a comma. -/
def undAt (prev : Option Char) (s : Str) : Option (Str × ℕ) :=
  if boundary prev s.head? && ciStarts "und".data s && nextNonWord (s.drop 3) then
    some (",".data, 3)
  else none

/-- Tail characters of the case-sensitive name regex of `extractNames`:
`[A-Za-zÄÖÜäöüß.'-]`. -/
def isNameTailCS (c : Char) : Bool :=
  isAsciiLower c || isAsciiUpper c || c = 'Ä' || c = 'Ö' || c = 'Ü' ||
  c = 'ä' || c = 'ö' || c = 'ü' || c = 'ß' || c = '.' || c = Char.ofNat 39 || c = '-'

/-- `[A-ZÄÖÜ][A-Za-zÄÖÜäöüß.'-]+` (case-sensitive): one name word. -/
def matchNameWordCS (s : Str) : Option ℕ :=
  match s with
  | c :: rest =>
    if isUpperDE c then
      let t := rest.takeWhile isNameTailCS
      if t = [] then none else some (1 + t.length)
    else none
  | [] => none

def nameSeqExtCSAux : ℕ → Str → ℕ → ℕ
  | 0, _, k => k
  | fuel + 1, s, k =>
    let w := wsLen (s.drop k)
    if w = 0 then k
    else
      match matchNameWordCS (s.drop (k + w)) with
      | some m => nameSeqExtCSAux fuel s (k + w + m)
      | none => k

/-- The anchored name regex of `extractNames`:
`^[A-ZÄÖÜ][A-Za-zÄÖÜäöüß.'-]+(?:\s+[A-ZÄÖÜ][A-Za-zÄÖÜäöüß.'-]+)+$`. -/
def nameRegexFull (s : Str) : Bool :=
  match matchNameWordCS s with
  | none => false
  | some n1 =>
    let k := nameSeqExtCSAux s.length s n1
    k ≠ n1 && k = s.length

/-- `extractNames`. -/
def extractNames (text : Str) : List Str :=
  let subject := if text.contains ':' then (text.dropWhile (· ≠ ':')).drop 1 else text
  let subject := match searchStr vorOrtAt subject with
    | some idx => subject.drop (idx + 7)
    | none => subject
  let subject := match searchStr hoursCueAt subject with
    | some idx => subject.take idx
    | none => subject
  let subject := replaceScan undAt subject
  let subject := subject.map (fun c => if c = '/' || c = '&' then ',' else c)
  let tokens := ((splitOnChar ',' subject).map trimStr).filter (· ≠ [])
  tokens.filter nameRegexFull

/-! ### Worker-line detection (`isWorkerLine` and friends) -/

/-- One position of `\b(w₁|w₂|…)\b` for a list of lowercase word literals,
case-insensitively (used for the role-word tests). -/
def wordListAt (pats : List Str) (prev : Option Char) (s : Str) : Bool :=
  boundary prev s.head? &&
  pats.any (fun p => ciStarts p s && nextNonWord (s.drop p.length))

/-- One position of `\b\d{1,2}[:.]\d{2}\b|\buhr\b` (the `hasTime` test). -/
def timeAt (prev : Option Char) (s : Str) : Bool :=
  (boundary prev s.head? &&
    (let d := s.takeWhile isDigitC
     let try2 :=
       d.length ≥ 2 &&
       (match s.drop 2 with
        | c :: r =>
          (c = ':' || c = '.') && (r.take 2).length = 2 && (r.take 2).all isDigitC &&
          nextNonWord (r.drop 2)
        | [] => false)
     let try1 :=
       d.length ≥ 1 &&
       (match s.drop 1 with
        | c :: r =>
          (c = ':' || c = '.') && (r.take 2).length = 2 && (r.take 2).all isDigitC &&
          nextNonWord (r.drop 2)
        | [] => false)
     try2 || try1))
  || (boundary prev s.head? && ciStarts "uhr".data s && nextNonWord (s.drop 3))

/-- Whether `(?=m[²2]\b)` holds at this position (the *negative* lookahead of
the count/role patterns fails exactly when this is true).  After `2` (a word
character) the boundary needs a non-word successor; after `²` (not a word
character) it needs a word successor. -/
def lookM2 (s : Str) : Bool :=
  match s with
  | c1 :: c2 :: r =>
    lowerC c1 = 'm' && ((c2 = '2' && nextNonWord r) || (c2 = '²' && nextIsWord r))
  | [c1] => (lowerC c1 = 'm') && false
  | [] => false

/-- Role-token tail under the `u` flag: `[\p{L}äöüß.-]`. -/
def roleTailU (c : Char) : Bool := isLetterDE c || c = '.' || c = '-'

/-- Role-token tail *without* the `u` flag, where `\p` is an identity escape:
the class `[\p{L}äöüß.-]` then contains exactly `p`, `{`, `L`, `}`, the umlauts,
`ß`, `.` and `-` (case-insensitively). -/
def roleTailNoU (c : Char) : Bool :=
  lowerC c = 'p' || lowerC c = 'l' || c = '{' || c = '}' ||
  lowerC c = 'ä' || lowerC c = 'ö' || lowerC c = 'ü' || c = 'ß' || c = '.' || c = '-'

/-- All ways to match one role token `[a-zäöüß]tail*` at the head of `s`
(`/i`: the start class also matches the uppercase letters): pairs of
(last consumed char, remainder), longest match first (JS greedy order). -/
def tokenStops (tail : Char → Bool) (s : Str) : List (Char × Str) :=
  match s with
  | c :: rest =>
    if isLetterDE c then
      let run := rest.takeWhile tail
      (List.range (run.length + 1)).reverse.map
        (fun k => (if k = 0 then c else run.getD (k - 1) c, rest.drop k))
    else []
  | [] => []

/-- `\s+je(?:weils)?\s+\d+(?:[.,]\d+)?(?:\s*(?:h|std\.?|stunden))?\b` — the tail
of the `hasCountRoleJeHours` pattern, checked from just after a role token. -/
def jeTailAt (s : Str) : Bool :=
  let w := wsLen s
  w ≠ 0 &&
  (let s1 := s.drop w
   ciStarts "je".data s1 &&
   (let tryAt : ℕ → Bool := fun k =>
      let w2 := wsLen (s1.drop k)
      w2 ≠ 0 &&
      match matchNumber (s1.drop (k + w2)) with
      | none => false
      | some (cap, n) =>
        let after := s1.drop (k + w2 + n)
        (matchHourUnit (after.drop (wsLen after))).isSome
        || nextNonWord after
        || cap.any (fun c => c = '.' || c = ',')
    if ciStarts "weils".data (s1.drop 2) then tryAt 7 else tryAt 2))

/-- After a role token (`(lc, r)` from `tokenStops`): can the
`hasCountRoleJeHours` pattern be completed, allowing up to `depth` further
`\s+token` repetitions?  (`.test` semantics: existence suffices.) -/
def afterTokJe (tail : Char → Bool) : ℕ → Char × Str → Bool
  | 0, (_, r) => jeTailAt r
  | depth + 1, (_, r) =>
    jeTailAt r ||
    (let w := wsLen r
     w ≠ 0 && (tokenStops tail (r.drop w)).any (afterTokJe tail depth))

/-- One position of the `hasCountRoleJeHours` regex
`\b\d+(?:[.,]\d+)?\s+(?!m[²2]\b)(?:[a-zäöüß][\p{L}äöüß.-]*)(?:\s+[a-zäöüß][\p{L}äöüß.-]*){0,2}\s+je(?:weils)?\s+\d+(?:[.,]\d+)?(?:\s*(?:h|std\.?|stunden))?\b`
(`/iu`). -/
def countRoleJeAt (prev : Option Char) (s : Str) : Bool :=
  boundary prev s.head? &&
  match matchNumber s with
  | none => false
  | some (_, n) =>
    let w := wsLen (s.drop n)
    w ≠ 0 &&
    (let s1 := s.drop (n + w)
     !lookM2 s1 && (tokenStops roleTailU s1).any (afterTokJe roleTailU 2))

/-- After a role token: can the `hasRoleCountHours` pattern (which just ends in
`\b`) be completed, allowing up to `depth` further `\s+token` repetitions? -/
def afterTokB (tail : Char → Bool) : ℕ → Char × Str → Bool
  | 0, (lc, r) => boundaryAfter lc r
  | depth + 1, (lc, r) =>
    boundaryAfter lc r ||
    (let w := wsLen r
     w ≠ 0 && (tokenStops tail (r.drop w)).any (afterTokB tail depth))

/-- One position of the `hasRoleCountHours` regex
`\b\d+(?:[.,]\d+)?\s+(?!m[²2]\b)(?:[a-zäöüß][\p{L}äöüß.-]*)(?:\s+[a-zäöüß][\p{L}äöüß.-]*){0,2}\b`
(`/i` — without the `u` flag, so `\p{L}` in the class denotes the literal
characters `p{L}`). -/
def roleCountAt (prev : Option Char) (s : Str) : Bool :=
  boundary prev s.head? &&
  match matchNumber s with
  | none => false
  | some (_, n) =>
    let w := wsLen (s.drop n)
    w ≠ 0 &&
    (let s1 := s.drop (n + w)
     !lookM2 s1 && (tokenStops roleTailNoU s1).any (afterTokB roleTailNoU 2))

/-- The worker-word list of `isWorkerLine`. -/
def workerWords : List Str :=
  ["mann".data, "mitarbeiter".data, "arbeiter".data, "monteur".data,
   "helfer".data, "personal".data, "kolonne".data, "team".data]

/-- `isWorkerLine`. -/
def isWorkerLine (text : Str) : Bool :=
  if trimStr text = [] then false
  else
    let normalizedValue := replaceNumberWords text
    let hasWorkerWord := testScan (wordListAt workerWords) text
    let hasHours := testScan hoursExprAt normalizedValue
    let hasTime := testScan timeAt text
    let hasArbeitszeit := testScan (wordListAt ["arbeitszeit".data]) text
    let hasVorOrt := testScan vorOrtAt text
    let hasCountRoleJeHours := testScan countRoleJeAt normalizedValue
    let hasRoleCountHours := testScan roleCountAt normalizedValue && hasHours
    let hasNamedPeopleWithHours := extractNameHourPairs text ≠ []
    hasArbeitszeit ||
    (hasWorkerWord && (hasHours || hasTime || hasVorOrt)) ||
    hasCountRoleJeHours ||
    hasNamedPeopleWithHours ||
    (hasVorOrt && hasRoleCountHours)

/-! ### Material units and entries -/

/-- `MATERIAL_UNIT_ALIASES` (keys as they appear after
lowercasing/dot-stripping/whitespace-stripping in `normalizeMaterialUnit`). -/
def materialUnitAliases : List (Str × Str) :=
  [("m".data, "m".data), ("mm".data, "mm".data), ("cm".data, "cm".data),
   ("dm".data, "dm".data), ("km".data, "km".data), ("lfm".data, "lfm".data),
   ("qm".data, "m²".data), ("m2".data, "m²".data), ("m²".data, "m²".data),
   ("m^2".data, "m²".data), ("cbm".data, "m³".data), ("m3".data, "m³".data),
   ("m³".data, "m³".data), ("m^3".data, "m³".data), ("l".data, "l".data),
   ("lt".data, "l".data), ("liter".data, "l".data), ("ml".data, "ml".data),
   ("cl".data, "cl".data), ("kg".data, "kg".data), ("g".data, "g".data),
   ("t".data, "t".data), ("stk".data, "Stk".data), ("st".data, "Stk".data),
   ("stück".data, "Stk".data), ("stueck".data, "Stk".data), ("pcs".data, "Stk".data),
   ("pc".data, "Stk".data), ("paar".data, "Paar".data), ("set".data, "Set".data),
   ("satz".data, "Satz".data), ("rolle".data, "Rolle".data), ("rollen".data, "Rolle".data),
   ("beutel".data, "Beutel".data), ("sack".data, "Sack".data), ("kiste".data, "Kiste".data),
   ("karton".data, "Karton".data), ("palette".data, "Palette".data), ("pal".data, "Palette".data),
   ("dose".data, "Dose".data), ("paket".data, "Paket".data), ("pack".data, "Pack".data)]

def assocLookup (key : Str) : List (Str × Str) → Option Str
  | [] => none
  | (k, v) :: rest => if k = key then some v else assocLookup key rest

/-- `MATERIAL_UNIT_CANONICAL`: the lowercased alias values. -/
def materialUnitCanonical : List Str :=
  (materialUnitAliases.map (fun p => lowerStr p.2)).eraseDups

/-- `normalizeMaterialUnit`. -/
def normalizeMaterialUnit (rawUnit : Str) : Str :=
  let value := trimStr rawUnit
  if value = [] then []
  else
    let key := (lowerStr value).filter (fun c => c ≠ '.' && !isWS c)
    (assocLookup key materialUnitAliases).getD value

/-- `isKnownMaterialUnit`. -/
def isKnownMaterialUnit (rawUnit : Str) : Bool :=
  let normalized := normalizeMaterialUnit rawUnit
  normalized ≠ [] && materialUnitCanonical.contains (lowerStr normalized)

/-- `isTimeUnitToken` (`/^(h|std\.?|stunden)$/i`). -/
def isTimeUnitToken (rawUnit : Str) : Bool :=
  let t := lowerStr (trimStr rawUnit)
  t = "h".data || t = "std".data || t = "std.".data || t = "stunden".data

structure MaterialEntry where
  qty : Str
  unit : Str
  desc : Str
deriving DecidableEq, Repr

/-- The unit character class of the material item regex:
`[A-Za-zÄÖÜäöüßµ²³]`. -/
def isUnitChar (c : Char) : Bool :=
  isAsciiLower c || isAsciiUpper c || c = 'Ä' || c = 'Ö' || c = 'Ü' ||
  c = 'ä' || c = 'ö' || c = 'ü' || c = 'ß' || c = 'µ' || c = '²' || c = '³'

/-- One position of the material item regex
`(\d+(?:[.,]\d+)?)\s*([A-Za-zÄÖÜäöüßµ²³]+)\s+([^,;]+)` (`/gi`).  The emitted
value is `none` when the match succeeds but the unit is rejected (unknown unit
or a time unit) — the source `continue`s, yet `lastIndex` has already advanced
past the match. -/
def materialItemAt (_prev : Option Char) (s : Str) : Option (Option MaterialEntry × ℕ) :=
  match matchNumber s with
  | none => none
  | some (qty, n) =>
    let w := wsLen (s.drop n)
    let unit := (s.drop (n + w)).takeWhile isUnitChar
    if unit = [] then none
    else
      let p1 := n + w + unit.length
      let w2 := wsLen (s.drop p1)
      if w2 = 0 then none
      else
        let desc := (s.drop (p1 + w2)).takeWhile (fun c => c ≠ ',' && c ≠ ';')
        if desc = [] then none
        else
          let total := p1 + w2 + desc.length
          if isKnownMaterialUnit unit && !isTimeUnitToken unit then
            some (some ⟨qty, normalizeMaterialUnit unit, trimStr desc⟩, total)
          else
            some (none, total)

/-- One position of the fallback regex `(\d+(?:[.,]\d+)?)\s*[x×]\s*([^,;]+)`
(`/gi`). -/
def materialXAt (_prev : Option Char) (s : Str) : Option (MaterialEntry × ℕ) :=
  match matchNumber s with
  | none => none
  | some (qty, n) =>
    let w := wsLen (s.drop n)
    match s.drop (n + w) with
    | c :: _ =>
      if lowerC c = 'x' || c = '×' then
        let p1 := n + w + 1
        let w2 := wsLen (s.drop p1)
        let desc := (s.drop (p1 + w2)).takeWhile (fun c => c ≠ ',' && c ≠ ';')
        if desc = [] then none
        else some (⟨qty, "Stk".data, trimStr desc⟩, p1 + w2 + desc.length)
      else none
    | [] => none

/-- `parseMaterialEntries`. -/
def parseMaterialEntries (text : Str) : List MaterialEntry :=
  let value := trimStr text
  if value = [] then []
  else
    let parts := ((splitOnChar ';' value).map trimStr).filter (· ≠ [])
    match parts with
    | [p0, p1, p2] => [⟨p0, normalizeMaterialUnit p1, p2⟩]
    | _ =>
      let results := (scanG materialItemAt value).reduceOption
      if results ≠ [] then results
      else scanG materialXAt value

/-- One position of `\b(material|geliefert|lieferung|mat\.?)\b` (`/i`). -/
def materialWordAt (prev : Option Char) (s : Str) : Bool :=
  boundary prev s.head? &&
  ((ciStarts "material".data s && nextNonWord (s.drop 8))
   || (ciStarts "geliefert".data s && nextNonWord (s.drop 9))
   || (ciStarts "lieferung".data s && nextNonWord (s.drop 9))
   || (ciStarts "mat".data s &&
       (nextNonWord (s.drop 3) || ((s.drop 3).head? = some '.' && nextIsWord (s.drop 4)))))

/-- `isMaterialLine`. -/
def isMaterialLine (text : Str) : Bool :=
  if trimStr text = [] then false
  else if isWorkerLine text then false
  else if testScan materialWordAt text then true
  else parseMaterialEntries text ≠ []

/-- `isServiceLine`. -/
def isServiceLine (text : Str) : Bool :=
  if isWorkerLine text then false
  else if isMaterialLine text then false
  else true

/-! ### Worker role labels and display names -/

def umlautExpand (c : Char) : Str :=
  if c = 'ä' then "ae".data else if c = 'ö' then "oe".data
  else if c = 'ü' then "ue".data else if c = 'ß' then "ss".data else [c]

/-- `normalizeNumberWord`: lowercase plus umlaut transliteration. -/
def normalizeNumberWordStr (w : Str) : Str := (lowerStr w).flatMap umlautExpand

def upperC (c : Char) : Char :=
  if isAsciiLower c then Char.ofNat (c.toNat - 32)
  else if c = 'ä' then 'Ä' else if c = 'ö' then 'Ö' else if c = 'ü' then 'Ü' else c

/-- `token.charAt(0).toUpperCase() + token.slice(1)` for tokens starting with a
lowercase letter (JS uppercases `ß` to the two-character string `SS`). -/
def upperFirstToken (t : Str) : Str :=
  match t with
  | c :: r =>
    if isLowerDE c then (if c = 'ß' then 'S' :: 'S' :: r else upperC c :: r) else t
  | [] => []

/-- `token.replace(/eure$/i, m => m[0] === "E" ? "Eur" : "eur")`. -/
def fixEureToken (t : Str) : Str :=
  if t.length ≥ 4 && lowerStr (t.drop (t.length - 4)) = "eure".data then
    t.take (t.length - 4) ++ (if t.getD (t.length - 4) ' ' = 'E' then "Eur".data else "eur".data)
  else t

/-- `roleMap` of `normalizeWorkerRoleLabel`. -/
def roleMap : List (Str × Str) :=
  [("männer".data, "Mann".data), ("maenner".data, "Mann".data), ("mann".data, "Mann".data),
   ("mitarbeiter".data, "Mitarbeiter".data), ("arbeiter".data, "Arbeiter".data),
   ("monteur".data, "Monteur".data), ("monteure".data, "Monteur".data),
   ("installateur".data, "Installateur".data), ("installateure".data, "Installateur".data),
   ("helfer".data, "Helfer".data), ("personal".data, "Personal".data),
   ("kolonne".data, "Kolonne".data), ("team".data, "Team".data),
   ("ma".data, "Mitarbeiter".data)]

def genericRoles : List Str :=
  ["Mann".data, "Mitarbeiter".data, "Arbeiter".data, "Helfer".data,
   "Personal".data, "Kolonne".data, "Team".data]

def stripTrailPunct (s : Str) : Str :=
  (s.reverse.dropWhile (fun c => c = '.' || c = ',' || c = ';' || c = ':')).reverse

def joinSpace (parts : List Str) : Str := unwords parts

/-- `normalizeWorkerRoleLabel`. -/
def normalizeWorkerRoleLabel (roleText : Str) : Str :=
  let cleaned := stripTrailPunct (trimStr roleText)
  if cleaned = [] then "Mitarbeiter".data
  else
    let roleKey := collapseWS (normalizeNumberWordStr cleaned)
    let roleLabel := match assocLookup roleKey roleMap with
      | some label => label
      | none => joinSpace ((wordsOf cleaned).map (fun t => upperFirstToken (fixEureToken t)))
    if genericRoles.contains roleLabel then "Mitarbeiter".data else roleLabel

def wsOnly (s : Str) : Bool := s.all isWS

/-- `…\b\.?\s*$` after a unit ending in the word character `lc` (for `std`, the
pattern's inner optional dot can never complete a match here — it would need a
word character right after the dot and then whitespace-to-end — so only the
outer dot matters). -/
def endTailDot (lc : Char) (r : Str) : Bool :=
  boundaryAfter lc r && (wsOnly r || (r.head? = some '.' && wsOnly (r.drop 1)))

/-- `(?:h|std\.?|stunden)\b\.?\s*$`. -/
def unitSuffixEnd (s : Str) : Bool :=
  (ciStarts "h".data s && endTailDot 'h' (s.drop 1))
  || (ciStarts "std".data s && endTailDot 'd' (s.drop 3))
  || (ciStarts "stunden".data s && endTailDot 'n' (s.drop 7))

/-- `\d+(?:[.,]\d+)?\s*(?:h|std\.?|stunden)\b\.?\s*$`. -/
def numThenUnitEnd (s : Str) : Bool :=
  match matchNumber s with
  | none => false
  | some (_, n) =>
    let r := s.drop n
    unitSuffixEnd (r.drop (wsLen r))

/-- Optional `(?:,|;|:)` after leading `\s*`, then `\s*`: the rest of both
suffix patterns starts here. -/
def afterSepWS (s : Str) : Str :=
  let s0 := s.drop (wsLen s)
  let s1 := match s0 with
    | c :: _ => if c = ',' || c = ';' || c = ':' then s0.drop 1 else s0
    | [] => s0
  s1.drop (wsLen s1)

/-- First suffix pattern of `sanitizeWorkerDisplayName`:
`\s*(?:,|;|:)?\s*(?:je|jeweils)\s+\d+(?:[.,]\d+)?\s*(?:h|std\.?|stunden)\b\.?\s*$`. -/
def sanTailA (s : Str) : Bool :=
  let s2 := afterSepWS s
  let jeBranch : ℕ → Bool := fun k =>
    let w := wsLen (s2.drop k)
    w ≠ 0 && numThenUnitEnd (s2.drop (k + w))
  (ciStarts "je".data s2 && jeBranch 2) || (ciStarts "jeweils".data s2 && jeBranch 7)

/-- Second suffix pattern of `sanitizeWorkerDisplayName`:
`\s*(?:,|;|:)?\s*\d+(?:[.,]\d+)?\s*(?:h|std\.?|stunden)\b\.?\s*$`. -/
def sanTailB (s : Str) : Bool := numThenUnitEnd (afterSepWS s)

/-- Replace the leftmost match of an end-anchored pattern by the empty string
(JS `replace` without `g` on a `…$` pattern: the matched region is the suffix
from the leftmost start where the pattern matches). -/
def applySuffixStrip (pat : Str → Bool) (s : Str) : Str :=
  match (List.range (s.length + 1)).find? (fun p => pat (s.drop p)) with
  | some p => s.take p
  | none => s

/-- `sanitizeWorkerDisplayName`. -/
def sanitizeWorkerDisplayName (name : Str) : Str :=
  let value := trimStr name
  if value = [] then []
  else trimStr (applySuffixStrip sanTailB (applySuffixStrip sanTailA value))

/-! ### `parseWorkerEntries` -/

structure WorkerEntry where
  group : Str
  name : Str
  hours : Option ℚ
  noAggregate : Bool := false
deriving DecidableEq, Repr

/-- `(?=je(?:weils)?\b)`: the greedy optional `weils` backtracks, but after a
bare `je` the next character is then a `w`, a word character, so the boundary
can only hold on the variant actually present. -/
def lookJe (s : Str) : Bool :=
  ciStarts "je".data s &&
  (if ciStarts "jeweils".data s then nextNonWord (s.drop 7) else nextNonWord (s.drop 2))

/-- Lengths of one role token `[a-zäöüß][\p{L}äöüß.-]*` (`/iu`) at the head of
`s`, longest (JS-greedy) first. -/
def tokenLens (s : Str) : List ℕ :=
  match s with
  | c :: rest =>
    if isLetterDE c then
      let run := rest.takeWhile roleTailU
      (List.range (run.length + 1)).reverse.map (fun k => 1 + k)
    else []
  | [] => []

/-- Backtracking search for `(?:…token)(?:\s+token){0,d}\s*(?=je(?:weils)?\b)`
continuations after a first token of length `k`, in JS preference order
(more repetitions first, longer tokens first).  Returns the length of the
whole token group (tokens plus inner whitespace). -/
def rolesCap2Go (s : Str) : ℕ → ℕ → Option ℕ
  | 0, k =>
    let w := wsLen (s.drop k)
    if lookJe (s.drop (k + w)) then some k else none
  | d + 1, k =>
    let extend :=
      let w := wsLen (s.drop k)
      if w ≠ 0 then
        (tokenLens (s.drop (k + w))).findSome? (fun tl => rolesCap2Go s d (k + w + tl))
      else none
    match extend with
    | some r => some r
    | none =>
      let w := wsLen (s.drop k)
      if lookJe (s.drop (k + w)) then some k else none

/-- One position of the second count regex of `parseWorkerEntries`:
`(\d+(?:[.,]\d+)?)\s*(?:x|×)?\s*([a-zäöüß][\p{L}äöüß.-]*(?:\s+[a-zäöüß][\p{L}äöüß.-]*){0,2})\s*(?=je(?:weils)?\b)`
(`/iu`).  The optional `x` backtracks: if the token group cannot complete after
consuming an `x`, the `x` itself can serve as the first token. -/
def countMatch2At (_prev : Option Char) (s : Str) : Option ((Str × Str) × ℕ) :=
  match matchNumber s with
  | none => none
  | some (cap1, n) =>
    let p1 := n + wsLen (s.drop n)
    let tryFrom : ℕ → Option ((Str × Str) × ℕ) := fun p2 =>
      let p3 := p2 + wsLen (s.drop p2)
      let sTok := s.drop p3
      match (tokenLens sTok).findSome? (fun t1 => rolesCap2Go sTok 2 t1) with
      | some k => some ((cap1, sTok.take k), p3 + k)
      | none => none
    match s.drop p1 with
    | c :: _ =>
      if lowerC c = 'x' || c = '×' then
        match tryFrom (p1 + 1) with
        | some r => some r
        | none => tryFrom p1
      else tryFrom p1
    | [] => tryFrom p1

def countMatch2 (s : Str) : Option (Str × Str) :=
  (findFirstStr countMatch2At s).map Prod.fst

/-- The role alternation of the first count regex, in source order
(`mann|männer|maenner|mitarbeiter|arbeiter|monteur(?:e)?|helfer|personal|kolonne|team`),
each followed by `\b`. -/
def matchRoleAlt (s : Str) : Option ℕ :=
  if ciStarts "mann".data s && nextNonWord (s.drop 4) then some 4
  else if ciStarts "männer".data s && nextNonWord (s.drop 6) then some 6
  else if ciStarts "maenner".data s && nextNonWord (s.drop 7) then some 7
  else if ciStarts "mitarbeiter".data s && nextNonWord (s.drop 11) then some 11
  else if ciStarts "arbeiter".data s && nextNonWord (s.drop 8) then some 8
  else if ciStarts "monteure".data s && nextNonWord (s.drop 8) then some 8
  else if ciStarts "monteur".data s && nextNonWord (s.drop 7) then some 7
  else if ciStarts "helfer".data s && nextNonWord (s.drop 6) then some 6
  else if ciStarts "personal".data s && nextNonWord (s.drop 8) then some 8
  else if ciStarts "kolonne".data s && nextNonWord (s.drop 7) then some 7
  else if ciStarts "team".data s && nextNonWord (s.drop 4) then some 4
  else none

/-- One position of the first count regex of `parseWorkerEntries`:
`(\d+(?:[.,]\d+)?)\s*(?:x|×)?\s*(mann|…|team)\b` (`/i`).  (No role alternative
starts with `x`, so backtracking the optional `x` can never help; it is still
attempted, mirroring the engine.) -/
def countMatch1At (_prev : Option Char) (s : Str) : Option ((Str × Str) × ℕ) :=
  match matchNumber s with
  | none => none
  | some (cap1, n) =>
    let p1 := n + wsLen (s.drop n)
    let tryFrom : ℕ → Option ((Str × Str) × ℕ) := fun p2 =>
      let p3 := p2 + wsLen (s.drop p2)
      match matchRoleAlt (s.drop p3) with
      | some rl => some ((cap1, (s.drop p3).take rl), p3 + rl)
      | none => none
    match s.drop p1 with
    | c :: _ =>
      if lowerC c = 'x' || c = '×' then
        match tryFrom (p1 + 1) with
        | some r => some r
        | none => tryFrom p1
      else tryFrom p1
    | [] => tryFrom p1

def countMatch1 (s : Str) : Option (Str × Str) :=
  (findFirstStr countMatch1At s).map Prod.fst

/-- The role-word filter list applied to `extractNameHourPairs` results inside
`parseWorkerEntries`. -/
def pairRoleWords : List Str :=
  ["mann".data, "männer".data, "maenner".data, "mitarbeiter".data, "arbeiter".data,
   "monteur".data, "monteure".data, "helfer".data, "personal".data,
   "kolonne".data, "team".data]

/-- `parseWorkerEntries`. -/
def parseWorkerEntries (line : Str) : List WorkerEntry :=
  if trimStr line = [] then []
  else
    let parts := ((splitOnChar ';' line).map trimStr).filter (· ≠ [])
    let gt : Str × Str := match parts with
      | p0 :: p1 :: rest => (p0, joinSpace (p1 :: rest))
      | _ => ([], line)
    let group := gt.1
    let text := gt.2
    let hoursInfo := extractHoursInfo text
    let pairs := (extractNameHourPairs text).filter (fun p =>
      let nm := lowerStr p.1
      nm ≠ [] &&
      !(testScan (wordListAt ["je".data, "jeweils".data]) nm) &&
      !(testScan (wordListAt pairRoleWords) nm))
    if pairs ≠ [] then
      pairs.map (fun p => { group := group, name := p.1, hours := p.2 })
    else
      let names := extractNames text
      if names ≠ [] then
        let shouldApply := hoursInfo.applyToAll || names.length = 1
        names.map (fun name =>
          { group := group, name := name
            hours := if shouldApply then hoursInfo.hours else none })
      else
        let normalizedText := replaceNumberWords text
        let countMatch := match countMatch1 normalizedText with
          | some r => some r
          | none => countMatch2 normalizedText
        let fallback : List WorkerEntry :=
          [{ group := group, name := trimStr text, hours := hoursInfo.hours }]
        match countMatch, hoursInfo.hours with
        | some (c1, c2), some hv =>
          (match parseNum c1 with
           | some count =>
             if count.den = 1 ∧ 0 < count then
               let baseLabel := normalizeWorkerRoleLabel c2
               (List.range count.num.toNat).map (fun idx =>
                 { group := group, name := baseLabel ++ ' ' :: natToStr (idx + 1)
                   hours := some hv, noAggregate := true })
             else fallback
           | none => fallback)
        | _, _ => fallback

/-! ### `aggregateWorkers` -/

structure AggWorker where
  name : Str
  group : Str
  hours : ℚ
  hasHours : Bool
deriving DecidableEq, Repr, Inhabited

/-- A JS `Map`: association list in insertion order; `set` on an existing key
updates the value in place. -/
abbrev AggMap := List (Str × AggWorker)

def mapLookup (m : AggMap) (k : Str) : Option AggWorker :=
  match m with
  | [] => none
  | (k2, v) :: rest => if k2 = k then some v else mapLookup rest k

def mapSet (m : AggMap) (k : Str) (v : AggWorker) : AggMap :=
  match m with
  | [] => [(k, v)]
  | (k2, v2) :: rest => if k2 = k then (k2, v) :: rest else (k2, v2) :: mapSet rest k v

/-- The aggregation key: `` `${name.toLowerCase()}__${idx}` `` for
`_noAggregate` entries, the lowercased sanitized name otherwise. -/
def aggKey (noAgg : Bool) (name : Str) (idx : ℕ) : Str :=
  if noAgg then lowerStr name ++ '_' :: '_' :: natToStr idx else lowerStr name

/-- The update applied to the (old or freshly initialized) map value by one
iteration of the `aggregateWorkers` loop: add the entry's hours when present,
and fill in a still-empty group label. -/
def aggUpdate (e : WorkerEntry) (ex0 : AggWorker) : AggWorker :=
  let ex1 := match normalizeHoursValueQ e.hours with
    | some h => { ex0 with hours := addQ ex0.hours h, hasHours := true }
    | none => ex0
  if ex1.group = [] ∧ e.group ≠ [] then { ex1 with group := trimStr e.group } else ex1

/-- One iteration of the `aggregateWorkers` loop. -/
def aggStep (idx : ℕ) (m : AggMap) (e : WorkerEntry) : AggMap :=
  let name := sanitizeWorkerDisplayName e.name
  if name = [] then m
  else
    let key := aggKey e.noAggregate name idx
    mapSet m key (aggUpdate e ((mapLookup m key).getD
      { name := name, group := trimStr e.group, hours := 0, hasHours := false }))

def aggGo : ℕ → List WorkerEntry → AggMap → AggMap
  | _, [], m => m
  | idx, e :: rest, m => aggGo (idx + 1) rest (aggStep idx m e)

/-- `aggregateWorkers`. -/
def aggregateWorkers (entries : List WorkerEntry) : List AggWorker :=
  (aggGo 0 entries []).map Prod.snd

/-! ### Line splitting and section headers -/

def isBulletC (c : Char) : Bool := c = '-' || c = '*' || c = '•'

def bulletsGo : ℕ → Str → Str
  | 0, s => s
  | _ + 1, [] => []
  | fuel + 1, c :: rest => if isBulletC c then bulletsGo fuel (dropWhileWS rest) else c :: rest

/-- `stripLeadingBullet` (`replace(/^\s*(?:[-*•]\s*)+/g, "").trim()`; when no
bullet is present the replace does not fire, but the result after the final
trim is the same). -/
def stripLeadingBullet (text : Str) : Str :=
  trimStr (bulletsGo text.length (dropWhileWS text))

/-- `normalizeHeaderToken`. -/
def normalizeHeaderToken (text : Str) : Str :=
  trimStr (((lowerStr (stripLeadingBullet text)).reverse.dropWhile
    (fun c => c = ':' || c = '.' || isWS c)).reverse)

inductive SectionKind
  | leistungen
  | arbeitskraefte
  | material
deriving DecidableEq, Repr

/-- `SECTION_HEADER_MAP`. -/
def sectionHeaderMap : List (Str × SectionKind) :=
  [("ak".data, .arbeitskraefte), ("arbeitskraefte".data, .arbeitskraefte),
   ("arbeitskräfte".data, .arbeitskraefte), ("mitarbeiter".data, .arbeitskraefte),
   ("personal".data, .arbeitskraefte), ("team".data, .arbeitskraefte),
   ("dienstleistung".data, .leistungen), ("dienstleistungen".data, .leistungen),
   ("leistung".data, .leistungen), ("leistungen".data, .leistungen),
   ("ergebnis".data, .leistungen), ("ergebnisse".data, .leistungen),
   ("material".data, .material), ("materialien".data, .material),
   ("mat".data, .material)]

def lookupSection (key : Str) : List (Str × SectionKind) → Option SectionKind
  | [] => none
  | (k, v) :: rest => if k = key then some v else lookupSection key rest

/-- `detectSectionHeader`. -/
def detectSectionHeader (text : Str) : Option SectionKind :=
  lookupSection (normalizeHeaderToken text) sectionHeaderMap

/-- `isSectionHeaderLine`. -/
def isSectionHeaderLine (text : Str) : Bool := (detectSectionHeader text).isSome

/-- The marker alternation of `stripHeaderPrefix`/`extractSectionPrefix`, in
source order, as (stem, optional greedy suffix). -/
def markerAlts : List (Str × Str) :=
  [("ak".data, []), ("arbeitskraefte".data, []), ("arbeitskräfte".data, []),
   ("mitarbeiter".data, []), ("personal".data, []), ("team".data, []),
   ("dienstleistung".data, "en".data), ("leistung".data, "en".data),
   ("ergebnis".data, "se".data), ("material".data, "ien".data), ("mat".data, [])]

/-- `stripHeaderPrefix` (the regex `^(ak|…|mat)\s*:?\s*` — its tail always
matches, so the first prefix-matching alternative with greedy suffix wins). -/
def stripHeaderPrefixStr (text : Str) : Str :=
  let value := stripLeadingBullet text
  match markerAlts.findSome? (fun p =>
      if ciStarts p.1 value then
        some (p.1.length +
          (if p.2 ≠ [] && ciStarts p.2 (value.drop p.1.length) then p.2.length else 0))
      else none) with
  | some k =>
    let k2 := k + wsLen (value.drop k)
    let k3 := match value.drop k2 with
      | ':' :: _ => k2 + 1
      | _ => k2
    value.drop (k3 + wsLen (value.drop k3))
  | none => value

/-- `\s*:\s*(.*)$` from offset `k`: the content after the colon. -/
def colonContent (s : Str) (k : ℕ) : Option Str :=
  let w := wsLen (s.drop k)
  match s.drop (k + w) with
  | ':' :: r => some (r.drop (wsLen r))
  | _ => none

/-- `extractSectionPrefix` (the regex `^(ak|…|mat)\s*:\s*(.*)$`: the colon is
mandatory, so the greedy optional suffix and the alternation both backtrack). -/
def extractSectionPrefixStr (text : Str) : Option (SectionKind × Str) :=
  let value := stripLeadingBullet text
  markerAlts.findSome? (fun p =>
    if ciStarts p.1 value then
      let tryLen : ℕ → Option (SectionKind × Str) := fun len =>
        match colonContent value len with
        | some content =>
          match detectSectionHeader (value.take len) with
          | some sec => some (sec, trimStr content)
          | none => none
        | none => none
      match (if p.2 ≠ [] && ciStarts p.2 (value.drop p.1.length) then
               tryLen (p.1.length + p.2.length)
             else none) with
      | some r => some r
      | none => tryLen p.1.length
    else none)

/-- The colon-bearing markers of the first `splitReportLine` replace, in source
order. -/
def colonMarkers : List Str :=
  ["ak:".data, "mat:".data, "material:".data, "materialien:".data,
   "dienstleistung:".data, "dienstleistungen:".data, "leistung:".data,
   "leistungen:".data, "mitarbeiter:".data, "arbeitskraefte:".data,
   "arbeitskräfte:".data, "ergebnis:".data, "ergebnisse:".data]

/-- One position of the first `splitReportLine` replace (`(AK:|…)` → `"\n$1"`). -/
def colonMarkerAt (_prev : Option Char) (s : Str) : Option (Str × ℕ) :=
  colonMarkers.findSome? (fun m =>
    if ciStarts m s then some ('\n' :: s.take m.length, m.length) else none)

/-- One position of a `\bWORD\b(?!\s*:)` replace of `splitReportLine`. -/
def bareMarkerAt (word : Str) (rep : Str) (prev : Option Char) (s : Str) :
    Option (Str × ℕ) :=
  if boundary prev s.head? && ciStarts word s && nextNonWord (s.drop word.length) then
    let w := wsLen (s.drop word.length)
    if (s.drop (word.length + w)).head? = some ':' then none
    else some (rep, word.length)
  else none

def dropTrailCR (p : Str) : Str :=
  match p.reverse with
  | '\r' :: r => r.reverse
  | _ => p

/-- `split(/\r?\n/)`: `\n` separates, a `\r` directly before it belongs to the
separator; a trailing lone `\r` (no following `\n`) stays. -/
def splitNL (s : Str) : List Str :=
  let ps := splitOnChar '\n' s
  ps.dropLast.map dropTrailCR ++ ps.drop (ps.length - 1)

/-- `splitReportLine`. -/
def splitReportLine (raw : Str) : List Str :=
  if trimStr raw = [] then []
  else
    let l := replaceScan colonMarkerAt raw
    let l := replaceScan (bareMarkerAt "ak".data "\nAK:".data) l
    let l := replaceScan (bareMarkerAt "mat".data "\nMAT:".data) l
    let l := replaceScan (bareMarkerAt "material".data "\nMAT:".data) l
    let l := replaceScan (bareMarkerAt "leistung".data "\nLeistung:".data) l
    let l := replaceScan (bareMarkerAt "leistungen".data "\nLeistung:".data) l
    let l := replaceScan (bareMarkerAt "ergebnis".data "\nErgebnis:".data) l
    let l := replaceScan (bareMarkerAt "ergebnisse".data "\nErgebnis:".data) l
    ((splitNL l).map trimStr).filter (· ≠ [])

/-! ### The classifier router (`parseReportLines`) -/

structure Sections where
  leistungen : List Str
  arbeitskraefte : List Str
  material : List Str
deriving DecidableEq, Repr

def pushSection (secs : Sections) (k : SectionKind) (item : Str) : Sections :=
  match k with
  | .leistungen => { secs with leistungen := secs.leistungen ++ [item] }
  | .arbeitskraefte => { secs with arbeitskraefte := secs.arbeitskraefte ++ [item] }
  | .material => { secs with material := secs.material ++ [item] }

/-- The per-fragment step of `parseReportLines` (state: the sections filled so
far and the sticky `currentSection`). -/
def classifyFragment (st : Sections × Option SectionKind) (line : Str) :
    Sections × Option SectionKind :=
  let secs := st.1
  let cur := st.2
  let trimmed := trimStr line
  if trimmed = [] then (secs, cur)
  else
    match extractSectionPrefixStr trimmed with
    | some (sec, content) =>
      (if content ≠ [] then pushSection secs sec (stripLeadingBullet content) else secs,
       some sec)
    | none =>
      match detectSectionHeader trimmed with
      | some sec =>
        let content := trimStr (stripHeaderPrefixStr trimmed)
        (if content ≠ [] then pushSection secs sec content else secs, some sec)
      | none =>
        let cleaned := stripLeadingBullet trimmed
        if isWorkerLine cleaned then
          (pushSection secs .arbeitskraefte cleaned, some .arbeitskraefte)
        else if isMaterialLine cleaned then
          (pushSection secs .material cleaned, some .material)
        else
          match cur with
          | some .arbeitskraefte => (pushSection secs .arbeitskraefte cleaned, cur)
          | some .material => (pushSection secs .material cleaned, cur)
          | _ => (pushSection secs .leistungen cleaned, some .leistungen)

/-- `parseReportLines`. -/
def parseReportLines (lines : List Str) : Sections :=
  (lines.foldl (fun st raw => (splitReportLine raw).foldl classifyFragment st)
    (⟨[], [], []⟩, none)).1

/-! ### Reconciliation helpers -/

/-- `isDerivedFromLines`. -/
def isDerivedFromLines (item : Str) (lines : List Str) : Bool :=
  let needle := normalizeTextForCompare item
  needle ≠ [] &&
  lines.any (fun line =>
    let hay := normalizeTextForCompare line
    hay ≠ [] && (includesStr hay needle || includesStr needle hay))

/-- `sanitizeSections` on a fully-populated sections object. -/
def sanitizeSections (secs : Sections) (lines : List Str) : Sections :=
  let filt : List Str → List Str := fun items =>
    items.filter (fun item => isDerivedFromLines item lines && !isSectionHeaderLine item)
  ⟨filt secs.leistungen, filt secs.arbeitskraefte, filt secs.material⟩

def mergeUniqueGo : List Str → List Str → List Str
  | [], _ => []
  | item :: rest, seen =>
    let text := trimStr item
    if text = [] then mergeUniqueGo rest seen
    else
      let key := normalizeTextForCompare text
      if seen.contains key then mergeUniqueGo rest seen
      else text :: mergeUniqueGo rest (key :: seen)

/-- `mergeUnique` (the `normalizer` argument is `normalizeTextForCompare` at
every call site, including the explicitly-passed lambda). -/
def mergeUnique (a b : List Str) : List Str := mergeUniqueGo (a ++ b) []

/-- `replace(/\r?\n/g, ". ")`. -/
def replaceNL : Str → Str
  | [] => []
  | '\r' :: '\n' :: rest => '.' :: ' ' :: replaceNL rest
  | '\n' :: rest => '.' :: ' ' :: replaceNL rest
  | c :: rest => c :: replaceNL rest

/-- `splitSentences`. -/
def splitSentences (text : Str) : List Str :=
  ((splitOnRuns (fun c => c = '.' || c = '!' || c = '?') (replaceNL text)).map
    trimStr).filter (· ≠ [])

/-- `extractWorkerLinesFromText`. -/
def extractWorkerLinesFromText (lines : List Str) : List Str :=
  (splitSentences (joinSpace lines)).filter isWorkerLine

/-- `extractMaterialLinesFromText`. -/
def extractMaterialLinesFromText (lines : List Str) : List Str :=
  (splitSentences (joinSpace lines)).filter isMaterialLine

/-- The prefix alternation of `expandLeistungLines`:
`^(dienstleistung(?:en)?|zusatzleistung(?:en)?|leistung(?:en)?|ergebnis(?:se)?)\s*:?\s*`. -/
def leistungAlts : List (Str × Str) :=
  [("dienstleistung".data, "en".data), ("zusatzleistung".data, "en".data),
   ("leistung".data, "en".data), ("ergebnis".data, "se".data)]

def stripLeistungMark (s : Str) : Str :=
  match leistungAlts.findSome? (fun p =>
      if ciStarts p.1 s then
        some (p.1.length + (if ciStarts p.2 (s.drop p.1.length) then p.2.length else 0))
      else none) with
  | some k =>
    let k2 := k + wsLen (s.drop k)
    let k3 := match s.drop k2 with
      | ':' :: _ => k2 + 1
      | _ => k2
    s.drop (k3 + wsLen (s.drop k3))
  | none => s

/-- `expandLeistungLines`. -/
def expandLeistungLines (lines : List Str) : List Str :=
  (lines.map (fun line =>
    if !isServiceLine line then []
    else
      let cleaned := trimStr (stripLeistungMark (stripLeadingBullet line))
      let cleaned := trimStr (stripLeadingBullet cleaned)
      if cleaned = [] || isSectionHeaderLine cleaned then []
      else ((splitOnChar ',' cleaned).map trimStr).filter (· ≠ []))).flatten

/-- `extractLeistungenFromLines`. -/
def extractLeistungenFromLines (lines : List Str) : List Str :=
  expandLeistungLines
    ((splitSentences (joinSpace lines)).filter (fun s => !isSectionHeaderLine s))

/-- The prefix strip of `extractMaterialsFromLines`:
`^(material\s+geliefert|material)\s*:\s*` (colon mandatory). -/
def stripMaterialMark (s : Str) : Str :=
  let tryAfter : ℕ → Option ℕ := fun k =>
    let w := wsLen (s.drop k)
    match s.drop (k + w) with
    | ':' :: r => some (k + w + 1 + wsLen r)
    | _ => none
  if ciStarts "material".data s then
    let long :=
      let w := wsLen (s.drop 8)
      if w ≠ 0 && ciStarts "geliefert".data (s.drop (8 + w)) then tryAfter (8 + w + 9)
      else none
    match long with
    | some k => s.drop k
    | none =>
      match tryAfter 8 with
      | some k => s.drop k
      | none => s
  else s

/-- `extractMaterialsFromLines`. -/
def extractMaterialsFromLines (lines : List Str) : List MaterialEntry :=
  ((splitSentences (joinSpace lines)).map (fun sentence =>
    if !isMaterialLine sentence then []
    else parseMaterialEntries (stripMaterialMark sentence))).flatten

/-- `` `${m.qty}; ${m.unit}; ${m.desc}` ``. -/
def materialToDisplay (m : MaterialEntry) : Str :=
  m.qty ++ ';' :: ' ' :: m.unit ++ ';' :: ' ' :: m.desc

/-- `expandMaterialLines`. -/
def expandMaterialLines (lines : List Str) : List Str :=
  (lines.map (fun line =>
    let entries := parseMaterialEntries line
    if entries ≠ [] then entries.map materialToDisplay
    else if trimStr line ≠ [] then [trimStr line]
    else [])).flatten

/-! ### The reconciliation engine (`normalizeReportSections`) -/

/-- The external classification object (from `ai.js`'s `classifyReportLines`):
each field may be missing or not a list, in which case the `items || []` in
`sanitizeSections`' `filterItems` treats it as the empty list. -/
structure ExtSections where
  leistungen : Option (List Str) := none
  arbeitskraefte : Option (List Str) := none
  material : Option (List Str) := none
deriving DecidableEq, Repr

/-- `sanitizeSections` applied to an external classification object. -/
def sanitizeExtSections (secs : ExtSections) (lines : List Str) : Sections :=
  sanitizeSections
    ⟨secs.leistungen.getD [], secs.arbeitskraefte.getD [], secs.material.getD []⟩ lines

/-- `normalizeReportSections`. -/
def normalizeReportSections (lines : List Str) (sections : Option ExtSections) :
    Sections :=
  let parsed := parseReportLines lines
  let parsedClean := sanitizeSections parsed lines
  let parsedIndex :=
    (parsedClean.leistungen ++ parsedClean.arbeitskraefte ++ parsedClean.material).map
      normalizeTextForCompare
  let base :=
    match sections with
    | some secs =>
      let aiClean := sanitizeExtSections secs lines
      let addIfNew : List Str → List Str := fun items =>
        items.filter (fun item => !parsedIndex.contains (normalizeTextForCompare item))
      ({ leistungen := mergeUnique parsedClean.leistungen (addIfNew aiClean.leistungen)
         arbeitskraefte :=
           mergeUnique parsedClean.arbeitskraefte (addIfNew aiClean.arbeitskraefte)
         material := mergeUnique parsedClean.material (addIfNew aiClean.material) } :
        Sections)
    | none => parsedClean
  let extraLeistungen := extractLeistungenFromLines lines
  let extraMaterial := extractMaterialsFromLines lines
  let baseLeistungenRaw := base.leistungen
  let workerLinesFromLeistungen := baseLeistungenRaw.filter isWorkerLine
  let materialLinesFromLeistungen := baseLeistungenRaw.filter isMaterialLine
  let baseLeistungen := baseLeistungenRaw.filter isServiceLine
  let baseWorkerLines := base.arbeitskraefte ++ workerLinesFromLeistungen
  let fallbackWorkerLines :=
    if baseWorkerLines ≠ [] then [] else extractWorkerLinesFromText lines
  let baseMaterialLines := base.material ++ materialLinesFromLeistungen
  let fallbackMaterialLines :=
    if baseMaterialLines ≠ [] then [] else extractMaterialLinesFromText lines
  let rawMaterialLines := mergeUnique (baseMaterialLines ++ fallbackMaterialLines) []
  let baseMaterial := expandMaterialLines rawMaterialLines
  let mergedLeistungen := mergeUnique baseLeistungen extraLeistungen
  let expandedLeistungen := expandLeistungLines mergedLeistungen
  let workerLines := mergeUnique (baseWorkerLines ++ fallbackWorkerLines) []
  let workerLineKeys := (workerLines.map normalizeTextForCompare).filter (· ≠ [])
  let materialLineKeys := (rawMaterialLines.map normalizeTextForCompare).filter (· ≠ [])
  let cleanedLeistungen := expandedLeistungen.filter (fun item =>
    let key := normalizeTextForCompare item
    key ≠ [] && !workerLineKeys.contains key && !materialLineKeys.contains key)
  { leistungen := mergeUnique cleanedLeistungen []
    arbeitskraefte := workerLines
    material := mergeUnique baseMaterial (extraMaterial.map materialToDisplay) }

/-! ## Lemmas -/

/-- Every number the string-to-number conversion produces is non-negative
(the captures it is applied to are unsigned decimal literals). -/
theorem parseNum_nonneg (s : Str) (q : ℚ) (h : parseNum s = some q) : 0 ≤ q := by
  simp only [parseNum] at h
  split at h
  · exact absurd h (by simp)
  · split at h
    · rw [Option.some_inj] at h
      subst h
      positivity
    · split at h
      · rw [Option.some_inj] at h
        subst h
        exact Rat.mkRat_nonneg (by positivity) _
      · exact absurd h (by simp)

/-- Elements produced by a global scan all satisfy any property that the
position-wise matcher guarantees. -/
theorem scanGAux_mem {α} (f : Option Char → Str → Option (α × ℕ)) (P : α → Prop)
    (hf : ∀ prev s a n, f prev s = some (a, n) → P a) :
    ∀ fuel prev s a, a ∈ scanGAux f fuel prev s → P a := by
  intro fuel
  induction fuel with
  | zero => intro prev s a ha; simp [scanGAux] at ha
  | succ m ih =>
    intro prev s a ha
    match s with
    | [] => simp [scanGAux] at ha
    | c :: rest =>
      rw [scanGAux] at ha
      cases hm : f prev (c :: rest) with
      | some pr =>
        rw [hm] at ha
        rcases List.mem_cons.mp ha with h1 | h1
        · exact h1 ▸ hf _ _ _ _ (by rw [hm])
        · exact ih _ _ _ h1
      | none =>
        rw [hm] at ha
        exact ih _ _ _ ha

theorem scanG_mem {α} (f : Option Char → Str → Option (α × ℕ)) (P : α → Prop)
    (hf : ∀ prev s a n, f prev s = some (a, n) → P a)
    (s : Str) (a : α) (ha : a ∈ scanG f s) : P a :=
  scanGAux_mem f P hf _ _ _ _ ha

/-- Hours captured by the name/hour-pair scanner are non-negative. -/
theorem extractNameHourPairs_nonneg (t : Str) (p : Str × Option ℚ)
    (hp : p ∈ extractNameHourPairs t) (q : ℚ) (hq : p.2 = some q) : 0 ≤ q := by
  refine scanG_mem nameHourPairAt
    (fun p => ∀ q, p.2 = some q → 0 ≤ q) ?_ t p hp q hq
  intro prev s a n hf q hq
  simp only [nameHourPairAt] at hf
  split at hf
  · exact absurd hf (by simp)
  · split at hf
    · exact absurd hf (by simp)
    · split at hf
      · exact absurd hf (by simp)
      · split at hf
        · exact absurd hf (by simp)
        · split at hf
          · rw [Option.some_inj, Prod.mk.injEq] at hf
            obtain ⟨ha, -⟩ := hf
            rw [← ha] at hq
            exact parseNum_nonneg _ _ hq
          · exact absurd hf (by simp)

/-- The hours reported by `extractHoursInfo` are non-negative or absent. -/
theorem extractHoursInfo_nonneg (t : Str) (q : ℚ)
    (h : (extractHoursInfo t).hours = some q) : 0 ≤ q := by
  simp only [extractHoursInfo] at h
  split at h
  · exact parseNum_nonneg _ _ h
  · split at h
    · exact parseNum_nonneg _ _ h
    · exact absurd h (by simp)

/-- An `Option ℚ` is "none or non-negative" whenever it is the hours field of
`extractHoursInfo` of some text. -/
theorem hoursOfInfo_ok (t : Str) :
    (extractHoursInfo t).hours = none ∨
    ∃ q, (extractHoursInfo t).hours = some q ∧ 0 ≤ q := by
  cases h : (extractHoursInfo t).hours with
  | none => exact Or.inl rfl
  | some q => exact Or.inr ⟨q, rfl, extractHoursInfo_nonneg t q h⟩

/-- Every worker entry produced by `parseWorkerEntries` carries hours that are
either absent or a non-negative rational. -/
theorem parseWorkerEntries_hours_nonneg (line : Str) (e : WorkerEntry)
    (he : e ∈ parseWorkerEntries line) :
    e.hours = none ∨ ∃ q, e.hours = some q ∧ 0 ≤ q := by
  simp only [parseWorkerEntries] at he
  split at he
  · simp at he
  · split at he
    · -- name/hour-pair branch
      obtain ⟨p, hp, rfl⟩ := List.mem_map.mp he
      cases hq : p.2 with
      | none => exact Or.inl rfl
      | some q =>
        exact Or.inr ⟨q, rfl, extractNameHourPairs_nonneg _ _ (List.mem_filter.mp hp).1 q hq⟩
    · split at he
      · -- multi-name branch
        obtain ⟨nm, _, rfl⟩ := List.mem_map.mp he
        simp only
        split
        · exact hoursOfInfo_ok _
        · exact Or.inl rfl
      · -- counted-group branch and fallback
        split at he
        · split at he
          · split at he
            · obtain ⟨idx, _, rfl⟩ := List.mem_map.mp he
              exact Or.inr ⟨_, rfl, extractHoursInfo_nonneg _ _ (by assumption)⟩
            · rw [List.mem_singleton] at he
              subst he
              exact hoursOfInfo_ok _
          · rw [List.mem_singleton] at he
            subst he
            exact hoursOfInfo_ok _
        · rw [List.mem_singleton] at he
          subst he
          exact hoursOfInfo_ok _

/-! ### Specification of the aggregation loop -/

/-- The aggregation key of the entry processed at loop index `idx`. -/
def entryKey (idx : ℕ) (e : WorkerEntry) : Str :=
  aggKey e.noAggregate (sanitizeWorkerDisplayName e.name) idx

/-- The entries contributing to aggregation key `k` when the list is processed
starting at loop index `idx` (entries whose sanitized display name is empty
never contribute). -/
def contribsFrom (idx : ℕ) (es : List WorkerEntry) (k : Str) : List WorkerEntry :=
  match es with
  | [] => []
  | e :: rest =>
    (if sanitizeWorkerDisplayName e.name ≠ [] ∧ entryKey idx e = k then [e] else [])
      ++ contribsFrom (idx + 1) rest k

/-- The numeric contribution of one entry (`null` contributes `0`). -/
def contribHours (e : WorkerEntry) : ℚ := (normalizeHoursValueQ e.hours).getD 0

/-- The trimmed group of the first contributing entry whose trimmed group is
nonempty (the group label the loop ends up with). -/
def firstGroup (cs : List WorkerEntry) : Str :=
  match cs.find? (fun e => trimStr e.group ≠ []) with
  | some e => trimStr e.group
  | none => []

def firstName (cs : List WorkerEntry) : Str :=
  match cs with
  | [] => []
  | e :: _ => sanitizeWorkerDisplayName e.name

/-- The aggregated worker determined by a nonempty contribution list. -/
def aggSpec (cs : List WorkerEntry) : AggWorker :=
  { name := firstName cs
    group := firstGroup cs
    hours := (cs.map contribHours).sum
    hasHours := cs.any (fun e => (normalizeHoursValueQ e.hours).isSome) }

theorem mapLookup_mapSet_self (m : AggMap) (k : Str) (v : AggWorker) :
    mapLookup (mapSet m k v) k = some v := by
  induction m with
  | nil => simp [mapSet, mapLookup]
  | cons p rest ih =>
    obtain ⟨k2, v2⟩ := p
    by_cases h : k2 = k
    · simp [mapSet, h, mapLookup]
    · simp [mapSet, h, mapLookup, ih]

theorem mapLookup_mapSet_ne (m : AggMap) (k k2 : Str) (v : AggWorker) (h : k2 ≠ k) :
    mapLookup (mapSet m k v) k2 = mapLookup m k2 := by
  induction m with
  | nil => simp [mapSet, mapLookup, Ne.symm h]
  | cons p rest ih =>
    obtain ⟨k3, v3⟩ := p
    by_cases h3 : k3 = k
    · subst h3
      simp [mapSet, mapLookup, Ne.symm h]
    · by_cases h2 : k3 = k2
      · subst h2
        simp [mapSet, mapLookup, h3]
      · simp [mapSet, mapLookup, h3, h2, ih]

theorem firstGroup_single (e : WorkerEntry) : firstGroup [e] = trimStr e.group := by
  unfold firstGroup
  by_cases h : trimStr e.group = [] <;> simp [List.find?, h]

theorem firstName_append (cs l : List WorkerEntry) (h : cs ≠ []) :
    firstName (cs ++ l) = firstName cs := by
  cases cs with
  | nil => exact absurd rfl h
  | cons e rest => rfl

theorem firstGroup_append_single (cs : List WorkerEntry) (e : WorkerEntry) :
    firstGroup (cs ++ [e]) =
      (if firstGroup cs ≠ [] then firstGroup cs else trimStr e.group) := by
  unfold firstGroup
  rw [List.find?_append]
  cases h : cs.find? (fun e => trimStr e.group ≠ []) with
  | some c =>
    have hc := List.find?_some h
    simp only [decide_eq_true_eq] at hc
    simp [Option.orElse, hc]
  | none =>
    by_cases he : trimStr e.group = [] <;> simp [Option.orElse, List.find?, he]

/-- The invariant carried by the aggregation loop: every key present in the
map holds exactly the aggregate of its contributions so far, and absent keys
have no contributions. -/
def stateInv (C : Str → List WorkerEntry) (m : AggMap) : Prop :=
  ∀ k, (mapLookup m k = none → C k = []) ∧
       ∀ w, mapLookup m k = some w → C k ≠ [] ∧ w = aggSpec (C k)

theorem aggUpdate_new (e : WorkerEntry) :
    aggUpdate e
      { name := sanitizeWorkerDisplayName e.name, group := trimStr e.group,
        hours := 0, hasHours := false } = aggSpec [e] := by
  unfold aggUpdate aggSpec
  cases hh : normalizeHoursValueQ e.hours with
  | none =>
    dsimp only
    split <;>
      simp [firstName, firstGroup_single, contribHours, hh]
  | some hq =>
    dsimp only
    split <;>
      simp [firstName, firstGroup_single, contribHours, hh, addQ_eq_add]

theorem aggUpdate_old (cs : List WorkerEntry) (hcs : cs ≠ []) (e : WorkerEntry) :
    aggUpdate e (aggSpec cs) = aggSpec (cs ++ [e]) := by
  have hname : firstName (cs ++ [e]) = firstName cs := firstName_append cs [e] hcs
  have hgroup : firstGroup (cs ++ [e]) =
      (if firstGroup cs ≠ [] then firstGroup cs else trimStr e.group) :=
    firstGroup_append_single cs e
  unfold aggUpdate
  cases hh : normalizeHoursValueQ e.hours with
  | none =>
    dsimp only
    split
    · rename_i hcond
      obtain ⟨h1, h2⟩ := hcond
      simp only [aggSpec] at h1 ⊢
      rw [hname, hgroup, if_neg (by simpa using h1)]
      have he : trimStr e.group = [] ∨ trimStr e.group ≠ [] := em _
      simp [contribHours, hh]
    · rename_i hcond
      simp only [aggSpec] at hcond ⊢
      rw [hname, hgroup]
      have : (if firstGroup cs ≠ [] then firstGroup cs else trimStr e.group)
          = firstGroup cs := by
        by_cases hfg : firstGroup cs = []
        · rw [if_neg (by simpa using hfg), hfg]
          by_cases hg : e.group = []
          · rw [hg]; rfl
          · exact absurd ⟨hfg, hg⟩ hcond
        · rw [if_pos hfg]
      rw [this]
      simp [contribHours, hh]
  | some hq =>
    dsimp only
    split
    · rename_i hcond
      obtain ⟨h1, h2⟩ := hcond
      simp only [aggSpec] at h1 ⊢
      rw [hname, hgroup, if_neg (by simpa using h1)]
      simp [contribHours, hh, addQ_eq_add]
    · rename_i hcond
      simp only [aggSpec] at hcond ⊢
      rw [hname, hgroup]
      have : (if firstGroup cs ≠ [] then firstGroup cs else trimStr e.group)
          = firstGroup cs := by
        by_cases hfg : firstGroup cs = []
        · rw [if_neg (by simpa using hfg), hfg]
          by_cases hg : e.group = []
          · rw [hg]; rfl
          · exact absurd ⟨hfg, hg⟩ hcond
        · rw [if_pos hfg]
      rw [this]
      simp [contribHours, hh, addQ_eq_add]

theorem aggStep_inv (C : Str → List WorkerEntry) (m : AggMap) (idx : ℕ) (e : WorkerEntry)
    (h : stateInv C m) :
    stateInv
      (fun k => C k ++
        (if sanitizeWorkerDisplayName e.name ≠ [] ∧ entryKey idx e = k then [e] else []))
      (aggStep idx m e) := by
  by_cases hname : sanitizeWorkerDisplayName e.name = []
  · intro k
    dsimp only
    have hif : (if sanitizeWorkerDisplayName e.name ≠ [] ∧ entryKey idx e = k then [e] else [])
        = ([] : List WorkerEntry) := by simp [hname]
    rw [hif, List.append_nil]
    have hstep : aggStep idx m e = m := by simp [aggStep, hname]
    rw [hstep]
    exact h k
  · intro k
    dsimp only
    by_cases hk : entryKey idx e = k
    · subst hk
      have hstep : aggStep idx m e = mapSet m (entryKey idx e)
          (aggUpdate e ((mapLookup m (entryKey idx e)).getD
            { name := sanitizeWorkerDisplayName e.name, group := trimStr e.group,
              hours := 0, hasHours := false })) := by
        simp [aggStep, hname, entryKey]
      rw [hstep]
      have hif : (if sanitizeWorkerDisplayName e.name ≠ [] ∧
          entryKey idx e = entryKey idx e then [e] else []) = [e] := by simp [hname]
      rw [hif]
      constructor
      · intro hnone
        rw [mapLookup_mapSet_self] at hnone
        exact absurd hnone (by simp)
      · intro w hw
        rw [mapLookup_mapSet_self, Option.some_inj] at hw
        refine ⟨by simp, ?_⟩
        subst hw
        cases hm : mapLookup m (entryKey idx e) with
        | none =>
          rw [(h _).1 hm, List.nil_append]
          simp only [Option.getD_none]
          exact aggUpdate_new e
        | some w0 =>
          obtain ⟨hcs, hw0⟩ := (h _).2 w0 hm
          simp only [Option.getD_some]
          rw [hw0]
          exact aggUpdate_old _ hcs e
    · have hif : (if sanitizeWorkerDisplayName e.name ≠ [] ∧ entryKey idx e = k
          then [e] else []) = ([] : List WorkerEntry) := by simp [hk]
      rw [hif, List.append_nil]
      have hstep : aggStep idx m e = mapSet m (entryKey idx e)
          (aggUpdate e ((mapLookup m (entryKey idx e)).getD
            { name := sanitizeWorkerDisplayName e.name, group := trimStr e.group,
              hours := 0, hasHours := false })) := by
        simp [aggStep, hname, entryKey]
      rw [hstep]
      constructor
      · intro hnone
        rw [mapLookup_mapSet_ne _ _ _ _ (Ne.symm hk)] at hnone
        exact (h k).1 hnone
      · intro w hw
        rw [mapLookup_mapSet_ne _ _ _ _ (Ne.symm hk)] at hw
        exact (h k).2 w hw

theorem aggGo_inv (es : List WorkerEntry) :
    ∀ (idx : ℕ) (m : AggMap) (C : Str → List WorkerEntry),
      stateInv C m →
      stateInv (fun k => C k ++ contribsFrom idx es k) (aggGo idx es m) := by
  induction es with
  | nil =>
    intro idx m C h
    have hC : (fun k => C k ++ contribsFrom idx [] k) = C := by
      funext k
      simp [contribsFrom]
    rw [hC]
    exact h
  | cons e rest ih =>
    intro idx m C h
    have h2 := aggStep_inv C m idx e h
    have h3 := ih (idx + 1) _ _ h2
    have hC : (fun k => (fun k => C k ++
        (if sanitizeWorkerDisplayName e.name ≠ [] ∧ entryKey idx e = k then [e] else [])) k
          ++ contribsFrom (idx + 1) rest k)
        = (fun k => C k ++ contribsFrom idx (e :: rest) k) := by
      funext k
      simp [contribsFrom, List.append_assoc]
    rw [hC] at h3
    exact h3

/-- The keys of the association-list map are pairwise distinct. -/
def keysND (m : AggMap) : Prop := (m.map Prod.fst).Nodup

theorem mem_keys_of_mapSet (m : AggMap) (k x : Str) (v : AggWorker)
    (h : x ∈ (mapSet m k v).map Prod.fst) : x ∈ m.map Prod.fst ∨ x = k := by
  induction m with
  | nil => simpa [mapSet] using h
  | cons p rest ih =>
    obtain ⟨k2, v2⟩ := p
    by_cases h2 : k2 = k
    · simp only [mapSet, if_pos h2, List.map_cons, List.mem_cons] at h
      rcases h with h | h
      · exact Or.inl (by simp [h])
      · exact Or.inl (by simp [h])
    · simp only [mapSet, if_neg h2, List.map_cons, List.mem_cons] at h
      rcases h with h | h
      · exact Or.inl (by simp [h])
      · rcases ih h with h | h
        · exact Or.inl (by simp [h])
        · exact Or.inr h

theorem keysND_mapSet (m : AggMap) (k : Str) (v : AggWorker) (h : keysND m) :
    keysND (mapSet m k v) := by
  induction m with
  | nil => simp [keysND, mapSet]
  | cons p rest ih =>
    obtain ⟨k2, v2⟩ := p
    have hrest : keysND rest := (List.nodup_cons.mp h).2
    have hk2 : k2 ∉ rest.map Prod.fst := by
      have := (List.nodup_cons.mp h).1
      simpa using this
    by_cases h2 : k2 = k
    · unfold keysND
      simp only [mapSet, if_pos h2, List.map_cons]
      exact List.nodup_cons.mpr ⟨by simpa using hk2, hrest⟩
    · unfold keysND
      simp only [mapSet, if_neg h2, List.map_cons]
      refine List.nodup_cons.mpr ⟨?_, ih hrest⟩
      intro hmem
      rcases mem_keys_of_mapSet rest k k2 v hmem with hx | hx
      · exact hk2 hx
      · exact h2 hx

theorem keysND_aggStep (idx : ℕ) (m : AggMap) (e : WorkerEntry) (h : keysND m) :
    keysND (aggStep idx m e) := by
  unfold aggStep
  dsimp only
  split
  · exact h
  · exact keysND_mapSet _ _ _ h

theorem keysND_aggGo (es : List WorkerEntry) :
    ∀ (idx : ℕ) (m : AggMap), keysND m → keysND (aggGo idx es m) := by
  induction es with
  | nil => intro idx m h; exact h
  | cons e rest ih => intro idx m h; exact ih _ _ (keysND_aggStep idx m e h)

theorem mapLookup_of_mem (m : AggMap) (h : keysND m) (k : Str) (w : AggWorker)
    (hm : (k, w) ∈ m) : mapLookup m k = some w := by
  induction m with
  | nil => simp at hm
  | cons p rest ih =>
    obtain ⟨k2, v2⟩ := p
    rcases List.mem_cons.mp hm with h1 | h1
    · rw [Prod.mk.injEq] at h1
      obtain ⟨h2, h3⟩ := h1
      subst h2
      subst h3
      simp [mapLookup]
    · have hk2 : k2 ∉ rest.map Prod.fst := by
        have := (List.nodup_cons.mp h).1
        simpa using this
      have hne : k2 ≠ k := by
        intro hkk
        subst hkk
        exact hk2 (by exact List.mem_map.mpr ⟨(k2, w), h1, rfl⟩)
      simp only [mapLookup, if_neg hne]
      exact ih (List.nodup_cons.mp h).2 h1

/-- The characterization of `aggregateWorkers`: every output row is the
aggregate (first name, first nonempty trimmed group, hour sum, hours-present
flag) of the nonempty list of entries contributing to one aggregation key. -/
theorem aggregateWorkers_spec (entries : List WorkerEntry) (w : AggWorker)
    (hw : w ∈ aggregateWorkers entries) :
    ∃ k, contribsFrom 0 entries k ≠ [] ∧ w = aggSpec (contribsFrom 0 entries k) := by
  unfold aggregateWorkers at hw
  obtain ⟨⟨k, w2⟩, hmem, hw2⟩ := List.mem_map.mp hw
  have hnd : keysND (aggGo 0 entries []) :=
    keysND_aggGo entries 0 [] (by simp [keysND])
  have hlk := mapLookup_of_mem _ hnd _ _ hmem
  have hinv := aggGo_inv entries 0 [] (fun _ => [])
    (by
      intro k
      constructor
      · intro _; rfl
      · intro w hw; simp [mapLookup] at hw)
  have hres := (hinv k).2 w2 hlk
  rw [← hw2]
  exact ⟨k, by simpa using hres.1, by simpa using hres.2⟩

/-! ### Decimal strings and the distinctness of `_noAggregate` keys -/

theorem digitChar_digit (m : ℕ) : isDigitC (digitChar m) = true := by
  unfold digitChar
  split <;> rfl

theorem digitChar_toNat (m : ℕ) (h : m < 10) : (digitChar m).toNat - 48 = m := by
  interval_cases m <;> rfl

theorem natToStrGo_digits (fuel : ℕ) :
    ∀ n c, c ∈ natToStrGo fuel n → isDigitC c = true := by
  induction fuel with
  | zero => intro n c hc; simp [natToStrGo] at hc
  | succ f ih =>
    intro n c hc
    rw [natToStrGo] at hc
    split at hc
    · rw [List.mem_singleton] at hc
      subst hc
      exact digitChar_digit n
    · rw [List.mem_append] at hc
      rcases hc with hc | hc
      · exact ih _ _ hc
      · rw [List.mem_singleton] at hc
        subst hc
        exact digitChar_digit _

theorem strVal_append_digit (xs : Str) (c : Char) :
    strVal (xs ++ [c]) = 10 * strVal xs + (c.toNat - 48) := by
  unfold strVal
  rw [List.foldl_append]
  rfl

theorem natToStrGo_val (fuel : ℕ) :
    ∀ n, n < fuel → strVal (natToStrGo fuel n) = n := by
  induction fuel with
  | zero => omega
  | succ f ih =>
    intro n hn
    rw [natToStrGo]
    split
    · rename_i h10
      show strVal [digitChar n] = n
      have h1 : strVal [digitChar n] = 10 * 0 + ((digitChar n).toNat - 48) := rfl
      rw [h1, digitChar_toNat n h10]
      omega
    · rename_i h10
      have h2 : n / 10 < f := by omega
      rw [strVal_append_digit, ih _ h2,
        digitChar_toNat (n % 10) (Nat.mod_lt _ (by omega))]
      omega


theorem natToStr_val (n : ℕ) : strVal (natToStr n) = n :=
  natToStrGo_val (n + 1) n (by omega)

theorem natToStr_inj {i j : ℕ} (h : natToStr i = natToStr j) : i = j := by
  have hi := natToStr_val i
  rw [h, natToStr_val] at hi
  omega

theorem natToStr_digits (n : ℕ) (c : Char) (hc : c ∈ natToStr n) : isDigitC c = true :=
  natToStrGo_digits (n + 1) n c hc

theorem takeWhile_append_stop (p : Char → Bool) (xs : Str) (y : Char) (ys : Str)
    (hxs : ∀ c ∈ xs, p c = true) (hy : p y = false) :
    (xs ++ y :: ys).takeWhile p = xs := by
  induction xs with
  | nil => simp [List.takeWhile_cons, hy]
  | cons a rest ih =>
    have ha : p a = true := hxs a (by simp)
    simp only [List.cons_append, List.takeWhile_cons, ha, if_true]
    rw [ih (fun c hc => hxs c (by simp [hc]))]

/-- Two `_noAggregate` entries processed at different loop indices always get
different aggregation keys, whatever their (sanitized, lowercased) names are:
the digit run after the final `__` of the key decodes the index uniquely. -/
theorem aggKey_noAgg_inj (n1 n2 : Str) (i j : ℕ)
    (h : aggKey true n1 i = aggKey true n2 j) : i = j := by
  unfold aggKey at h
  simp only [if_pos] at h
  have h2 := congrArg List.reverse h
  simp only [List.reverse_append, List.reverse_cons] at h2
  rw [List.append_assoc, List.append_assoc, List.append_assoc, List.append_assoc] at h2
  simp only [List.singleton_append] at h2
  have htw := congrArg (List.takeWhile isDigitC) h2
  rw [takeWhile_append_stop _ _ _ _
      (fun c hc => natToStr_digits i c (List.mem_reverse.mp hc)) (by rfl),
    takeWhile_append_stop _ _ _ _
      (fun c hc => natToStr_digits j c (List.mem_reverse.mp hc)) (by rfl)] at htw
  exact natToStr_inj (List.reverse_injective htw)

/-! ### Exclusivity of the three classification predicates -/

theorem isMaterialLine_false_of_worker (s : Str) (hw : isWorkerLine s = true) :
    isMaterialLine s = false := by
  simp [isMaterialLine, hw]

theorem isServiceLine_eq (s : Str) :
    isServiceLine s = (!isWorkerLine s && !isMaterialLine s) := by
  unfold isServiceLine
  cases hw : isWorkerLine s
  · cases hm : isMaterialLine s <;> simp [hw, hm]
  · simp [hw, isMaterialLine_false_of_worker s hw]

/-! ### `normalizeTextForCompare` ignores outer whitespace -/

theorem wordsAux_allws (u : Str) (hu : ∀ c ∈ u, isWS c = true) :
    ∀ acc, wordsAux acc u = wordsAux acc [] := by
  induction u with
  | nil => intro acc; rfl
  | cons a rest ih =>
    intro acc
    have ha : isWS a = true := hu a (by simp)
    have ih2 := ih (fun c hc => hu c (by simp [hc]))
    by_cases hacc : acc = []
    · subst hacc
      simp only [wordsAux, ha, if_true, if_pos rfl]
      rw [ih2 []]
      rfl
    · simp only [wordsAux, ha, if_true, if_neg hacc]
      rw [ih2 []]
      rfl

theorem wordsAux_ws_prefix (u : Str) (hu : ∀ c ∈ u, isWS c = true) (v : Str) :
    wordsAux [] (u ++ v) = wordsAux [] v := by
  induction u with
  | nil => rfl
  | cons a rest ih =>
    have ha : isWS a = true := hu a (by simp)
    simp only [List.cons_append, wordsAux, ha, if_true, if_pos rfl]
    exact ih (fun c hc => hu c (by simp [hc]))

theorem wordsAux_ws_suffix (v : Str) (u : Str) (hu : ∀ c ∈ u, isWS c = true) :
    ∀ acc, wordsAux acc (v ++ u) = wordsAux acc v := by
  induction v with
  | nil =>
    intro acc
    rw [List.nil_append, wordsAux_allws u hu acc]
  | cons a rest ih =>
    intro acc
    by_cases ha : isWS a
    · by_cases hacc : acc = []
      · subst hacc
        simp only [List.cons_append, wordsAux, ha, if_true, if_pos rfl]
        exact ih []
      · simp only [List.cons_append, wordsAux, ha, if_true, if_neg hacc, List.append_eq]
        rw [ih []]
    · simp only [List.cons_append, wordsAux, ha, if_false, List.append_eq]
      exact ih (a :: acc)

theorem trim_decomp (s : Str) :
    ∃ a b, s = a ++ trimStr s ++ b ∧
      (∀ c ∈ a, isWS c = true) ∧ (∀ c ∈ b, isWS c = true) := by
  refine ⟨s.takeWhile isWS, ((s.dropWhile isWS).reverse.takeWhile isWS).reverse, ?_, ?_, ?_⟩
  · conv_lhs => rw [← List.takeWhile_append_dropWhile (p := isWS) (l := s)]
    rw [List.append_assoc]
    congr 1
    unfold trimStr dropWhileWS
    conv_lhs => rw [← List.reverse_reverse (s.dropWhile isWS),
      ← List.takeWhile_append_dropWhile (p := isWS) (l := (s.dropWhile isWS).reverse)]
    rw [List.reverse_append]
  · intro c hc
    exact List.mem_takeWhile_imp hc
  · intro c hc
    rw [List.mem_reverse] at hc
    exact List.mem_takeWhile_imp hc

theorem lowerC_ws (c : Char) (h : isWS c = true) : lowerC c = c := by
  simp only [isWS, Bool.or_eq_true, decide_eq_true_eq] at h
  rcases h with ((rfl | rfl) | rfl) | rfl <;> rfl

theorem compareChar_ws (c : Char) (h : isWS c = true) :
    isWS (if isComparePunct (lowerC c) then ' ' else lowerC c) = true := by
  rw [lowerC_ws c h]
  simp only [isWS, Bool.or_eq_true, decide_eq_true_eq] at h
  rcases h with ((rfl | rfl) | rfl) | rfl <;> rfl

/-- The dedup normalization is insensitive to leading/trailing whitespace — in
particular to the `trim` performed by `mergeUnique` before it pushes an item. -/
theorem normalize_trim (s : Str) :
    normalizeTextForCompare (trimStr s) = normalizeTextForCompare s := by
  obtain ⟨a, b, hs, ha, hb⟩ := trim_decomp s
  have hA : ∀ c ∈ a.map (fun c =>
      if isComparePunct (lowerC c) then ' ' else lowerC c), isWS c = true := by
    intro c hc
    obtain ⟨c0, hc0, rfl⟩ := List.mem_map.mp hc
    exact compareChar_ws c0 (ha c0 hc0)
  have hB : ∀ c ∈ b.map (fun c =>
      if isComparePunct (lowerC c) then ' ' else lowerC c), isWS c = true := by
    intro c hc
    obtain ⟨c0, hc0, rfl⟩ := List.mem_map.mp hc
    exact compareChar_ws c0 (hb c0 hc0)
  unfold normalizeTextForCompare collapseWS lowerStr wordsOf
  conv_rhs => rw [hs]
  simp only [List.map_append, List.map_map]
  rw [List.append_assoc,
    wordsAux_ws_prefix _ (by simpa [Function.comp] using hA),
    wordsAux_ws_suffix _ _ (by simpa [Function.comp] using hB)]

/-- Members of a `mergeUnique` result are trims of members of the inputs. -/
theorem mergeUniqueGo_mem (items : List Str) :
    ∀ (seen : List Str) (x : Str), x ∈ mergeUniqueGo items seen →
      ∃ y ∈ items, x = trimStr y := by
  induction items with
  | nil => intro seen x hx; simp [mergeUniqueGo] at hx
  | cons item rest ih =>
    intro seen x hx
    simp only [mergeUniqueGo] at hx
    split at hx
    · obtain ⟨y, hy, hxy⟩ := ih _ _ hx
      exact ⟨y, by simp [hy], hxy⟩
    · split at hx
      · obtain ⟨y, hy, hxy⟩ := ih _ _ hx
        exact ⟨y, by simp [hy], hxy⟩
      · rcases List.mem_cons.mp hx with h | h
        · exact ⟨item, by simp, h⟩
        · obtain ⟨y, hy, hxy⟩ := ih _ _ h
          exact ⟨y, by simp [hy], hxy⟩

theorem mergeUnique_mem (a b : List Str) (x : Str) (hx : x ∈ mergeUnique a b) :
    ∃ y ∈ a ++ b, x = trimStr y :=
  mergeUniqueGo_mem (a ++ b) [] x hx

theorem contains_of_mem (l : List Str) (k : Str) (hk : k ∈ l) : l.contains k = true :=
  List.contains_iff_exists_mem_beq.mpr ⟨k, hk, by simp⟩

/-- The `leistungen` bucket of `normalizeReportSections` never shares a
normalized text with the `arbeitskraefte` bucket: the final services filter
removes every item whose key occurs among the worker-line keys, and the output
worker lines are exactly the key source. -/
theorem leistungen_arbeitskraefte_disjoint (lines : List Str)
    (sections : Option ExtSections) (x y : Str)
    (hx : x ∈ (normalizeReportSections lines sections).leistungen)
    (hy : y ∈ (normalizeReportSections lines sections).arbeitskraefte) :
    normalizeTextForCompare x ≠ normalizeTextForCompare y := by
  simp only [normalizeReportSections] at hx hy
  obtain ⟨x0, hx0, rfl⟩ := mergeUnique_mem _ _ _ hx
  rw [List.append_nil] at hx0
  have hxp := (List.mem_filter.mp hx0).2
  simp only [Bool.and_eq_true, Bool.not_eq_true', decide_eq_true_eq] at hxp
  obtain ⟨⟨hk1, hk2⟩, hk3⟩ := hxp
  rw [normalize_trim]
  intro heq
  by_cases hky : normalizeTextForCompare y = []
  · exact hk1 (heq.trans hky)
  · have hmem : normalizeTextForCompare y ∈
        (List.map normalizeTextForCompare _).filter (fun k => k ≠ []) :=
      List.mem_filter.mpr ⟨List.mem_map.mpr ⟨y, hy, rfl⟩, by simpa using hky⟩
    have hcont := contains_of_mem _ _ hmem
    rw [← heq] at hcont
    rw [hk2] at hcont
    exact Bool.false_ne_true hcont

/-! ## Claims -/

/-- **C1** (counterexample).  The original claim — all three output buckets of
`normalizeReportSections` pairwise disjoint under `normalizeTextForCompare` —
fails: on the single line `"AK: 10 m Rohr"` with no external classification,
the workforce bucket holds `"10 m Rohr"` and the material bucket holds
`"10; m; Rohr"`, and the two normalize to the same text. -/
theorem C1_counterexample :
    normalizeReportSections ["AK: 10 m Rohr".data] none =
      ⟨[], ["10 m Rohr".data], ["10; m; Rohr".data]⟩ ∧
    normalizeTextForCompare "10 m Rohr".data =
      normalizeTextForCompare "10; m; Rohr".data :=
  ⟨by decide, by decide⟩

/-- **C1** (amended).  Of the three pairs, only `leistungen` versus
`arbeitskraefte` is disjoint under the normalized-text comparison, for every
input line list and every (possibly absent) external classification; the
`arbeitskraefte`/`material` and `leistungen`/`material` pairs can collide (see
the counterexample). -/
theorem C1_theorem (lines : List Str) (sections : Option ExtSections) (x y : Str)
    (hx : x ∈ (normalizeReportSections lines sections).leistungen)
    (hy : y ∈ (normalizeReportSections lines sections).arbeitskraefte) :
    normalizeTextForCompare x ≠ normalizeTextForCompare y :=
  leistungen_arbeitskraefte_disjoint lines sections x y hx hy

theorem C1_witness :
    "Anstrich".data ∈
      (normalizeReportSections ["Leistung: Anstrich".data, "AK: Müller 8h".data]
        none).leistungen ∧
    "Müller 8h".data ∈
      (normalizeReportSections ["Leistung: Anstrich".data, "AK: Müller 8h".data]
        none).arbeitskraefte ∧
    normalizeTextForCompare "Anstrich".data ≠ normalizeTextForCompare "Müller 8h".data :=
  ⟨by decide, by decide,
   C1_theorem ["Leistung: Anstrich".data, "AK: Müller 8h".data] none
     "Anstrich".data "Müller 8h".data (by decide) (by decide)⟩

/-- **C2**.  `parseWorkerEntries "2 Installateure je 4h"` returns exactly the
two entries `"Installateur 1"` and `"Installateur 2"`, each with hours `4` and
the `_noAggregate` flag set; `aggregateWorkers` keeps them as two separate
rows; and, in general, two `_noAggregate` entries (at distinct loop indices)
always receive distinct aggregation keys, whatever their names — so they are
never merged with each other. -/
theorem C2_theorem :
    parseWorkerEntries "2 Installateure je 4h".data =
      [⟨[], "Installateur 1".data, some 4, true⟩,
       ⟨[], "Installateur 2".data, some 4, true⟩] ∧
    aggregateWorkers (parseWorkerEntries "2 Installateure je 4h".data) =
      [⟨"Installateur 1".data, [], 4, true⟩, ⟨"Installateur 2".data, [], 4, true⟩] ∧
    ∀ (n1 n2 : Str) (i j : ℕ), i ≠ j → aggKey true n1 i ≠ aggKey true n2 j :=
  ⟨by decide, by decide,
   fun n1 n2 i j hij h => hij (aggKey_noAgg_inj n1 n2 i j h)⟩

theorem C2_witness :
    (0 : ℕ) ≠ 1 ∧
    aggKey true "installateur 1".data 0 ≠ aggKey true "installateur 1".data 1 :=
  ⟨by decide, C2_theorem.2.2 "installateur 1".data "installateur 1".data 0 1 (by decide)⟩

/-- **C3** (counterexample).  The claim says that on inputs of the exact form
`"<Name1> <Name2> 4h"` hours are assigned to neither name.  In fact the code
treats the two adjacent capitalized tokens as one multi-word person name and
assigns the hours to it: `"Hans Mueller 4h"` yields the single entry
`{group:"", name:"Hans Mueller", hours:4}`. -/
theorem C3_counterexample :
    parseWorkerEntries "Hans Mueller 4h".data =
      [⟨[], "Hans Mueller".data, some 4, false⟩] := by decide

/-- **C3** (amended).  Two adjacent capitalized tokens form a single multi-word
name, and `"<Name1> <Name2> 4h"` yields one entry named `"<Name1> <Name2>"`
with the hours assigned.  Hours are withheld only when several *separate*
names (comma- or "und"-separated) are found, the single hours value is not
adjacent to any name, and no per-person marker is present — e.g.
`"4h: Hans Mueller und Peter Schmidt"` yields both entries with hours null. -/
theorem C3_theorem :
    parseWorkerEntries "Hans Mueller 4h".data =
      [⟨[], "Hans Mueller".data, some 4, false⟩] ∧
    parseWorkerEntries "4h: Hans Mueller und Peter Schmidt".data =
      [⟨[], "Hans Mueller".data, none, false⟩,
       ⟨[], "Peter Schmidt".data, none, false⟩] :=
  ⟨by decide, by decide⟩

/-- **C4** (counterexample).  The claim says `parseWorkerEntries` applied to
the fragment `"Team A; Müller 8h"` yields an entry with name `"Müller"`.  The
extractor's fallback keeps the hours text in the name: the single entry is
named `"Müller 8h"`, not `"Müller"`. -/
theorem C4_counterexample :
    (parseWorkerEntries "Team A; Müller 8h".data).map WorkerEntry.name =
      ["Müller 8h".data] ∧
    "Müller 8h".data ≠ "Müller".data :=
  ⟨by decide, by decide⟩

/-- **C4** (amended).  `parseReportLines` puts exactly the fragment
`"Team A; Müller 8h"` into the workforce bucket; `parseWorkerEntries` on that
fragment yields one entry with group `"Team A"`, hours `8` and *name*
`"Müller 8h"`, whose display name sanitizes to `"Müller"`; the aggregation
step then reports the worker as `{name:"Müller", group:"Team A", hours:8}`. -/
theorem C4_theorem :
    parseReportLines ["AK: Team A; Müller 8h".data] =
      ⟨[], ["Team A; Müller 8h".data], []⟩ ∧
    parseWorkerEntries "Team A; Müller 8h".data =
      [⟨"Team A".data, "Müller 8h".data, some 8, false⟩] ∧
    sanitizeWorkerDisplayName "Müller 8h".data = "Müller".data ∧
    aggregateWorkers (parseWorkerEntries "Team A; Müller 8h".data) =
      [⟨"Müller".data, "Team A".data, 8, true⟩] :=
  ⟨by decide, by decide, by decide, by decide⟩

/-- **C5**.  The material extractor on `"10m Rohr, 3 Stk Dübel"` returns
exactly `{qty:"10", unit:"m", desc:"Rohr"}` then
`{qty:"3", unit:"Stk", desc:"Dübel"}`. -/
theorem C5_theorem :
    parseMaterialEntries "10m Rohr, 3 Stk Dübel".data =
      [⟨"10".data, "m".data, "Rohr".data⟩, ⟨"3".data, "Stk".data, "Dübel".data⟩] := by
  decide

/-- **C6**.  (a) Every entry produced by `parseWorkerEntries` has hours `null`
or a non-negative number.  (b) Every aggregated worker is determined by the
entries contributing to its key: its hours are the sum of their non-null hour
values (null contributing nothing), and `hasHours` is true exactly when at
least one contributing entry has non-null hours — a worker with no hour
mentions reports `hasHours = false`, never a fabricated zero with
`hasHours = true`. -/
theorem C6_theorem :
    (∀ (line : Str), ∀ e ∈ parseWorkerEntries line,
      e.hours = none ∨ ∃ q, e.hours = some q ∧ 0 ≤ q) ∧
    (∀ (entries : List WorkerEntry), ∀ w ∈ aggregateWorkers entries,
      ∃ k, contribsFrom 0 entries k ≠ [] ∧
        w.hours = ((contribsFrom 0 entries k).map contribHours).sum ∧
        (w.hasHours = true ↔
          ∃ e ∈ contribsFrom 0 entries k, normalizeHoursValueQ e.hours ≠ none)) := by
  constructor
  · exact parseWorkerEntries_hours_nonneg
  · intro entries w hw
    obtain ⟨k, hne, hspec⟩ := aggregateWorkers_spec entries w hw
    refine ⟨k, hne, ?_, ?_⟩
    · rw [hspec]; rfl
    · rw [hspec]
      simp [aggSpec, List.any_eq_true, Option.isSome_iff_ne_none]

theorem C6_witness :
    ((⟨[], "Hans Mueller".data, some 4, false⟩ : WorkerEntry) ∈
      parseWorkerEntries "Hans Mueller 4h".data) ∧
    ((⟨[], "Hans Mueller".data, some 4, false⟩ : WorkerEntry).hours = none ∨
      ∃ q, (⟨[], "Hans Mueller".data, some 4, false⟩ : WorkerEntry).hours = some q ∧
        0 ≤ q) ∧
    ((⟨"Anna Berta".data, "G1".data, 2, true⟩ : AggWorker) ∈
      aggregateWorkers [⟨"G1".data, "Anna Berta".data, some 2, false⟩]) ∧
    (∃ k, contribsFrom 0 [(⟨"G1".data, "Anna Berta".data, some 2, false⟩ : WorkerEntry)] k ≠ [] ∧
      (⟨"Anna Berta".data, "G1".data, 2, true⟩ : AggWorker).hours =
        ((contribsFrom 0 [(⟨"G1".data, "Anna Berta".data, some 2, false⟩ : WorkerEntry)] k).map
          contribHours).sum ∧
      ((⟨"Anna Berta".data, "G1".data, 2, true⟩ : AggWorker).hasHours = true ↔
        ∃ e ∈ contribsFrom 0 [(⟨"G1".data, "Anna Berta".data, some 2, false⟩ : WorkerEntry)] k,
          normalizeHoursValueQ e.hours ≠ none)) :=
  ⟨by decide,
   C6_theorem.1 "Hans Mueller 4h".data ⟨[], "Hans Mueller".data, some 4, false⟩ (by decide),
   by decide,
   C6_theorem.2 [⟨"G1".data, "Anna Berta".data, some 2, false⟩]
     ⟨"Anna Berta".data, "G1".data, 2, true⟩ (by decide)⟩

/-- **C7**.  The three classification predicates are total and mutually
exclusive: `isMaterialLine` is never true together with `isWorkerLine`,
`isServiceLine` holds exactly when neither of the other two does, and hence
every fragment is assigned exactly one of the three kinds (unclassifiable
fragments defaulting to services). -/
theorem C7_theorem (s : Str) :
    (isWorkerLine s && isMaterialLine s) = false ∧
    isServiceLine s = (!isWorkerLine s && !isMaterialLine s) ∧
    (isWorkerLine s).toNat + (isMaterialLine s).toNat + (isServiceLine s).toNat = 1 := by
  refine ⟨?_, isServiceLine_eq s, ?_⟩
  · cases hw : isWorkerLine s
    · simp
    · simp [isMaterialLine_false_of_worker s hw]
  · rw [isServiceLine_eq]
    cases hw : isWorkerLine s
    · cases hm : isMaterialLine s <;> simp [hm]
    · simp [isMaterialLine_false_of_worker s hw]

/-- **C8** (counterexample).  The claim says malformed or empty external
classifier output never changes the result relative to the heuristic path.
But a *present* classification object — even with every field empty — takes
the merge path, which pre-deduplicates the heuristic baseline by normalized
text and can change the final output: on these two lines the empty object
loses the `leistungen` entries that the absent classification keeps. -/
theorem C8_counterexample :
    normalizeReportSections
        ["Leistung: 2 Monteure je 4 Anstrich".data,
         "Leistung: 2 Monteure je: 4, Anstrich".data] (some {}) ≠
      normalizeReportSections
        ["Leistung: 2 Monteure je 4 Anstrich".data,
         "Leistung: 2 Monteure je: 4, Anstrich".data] none := by decide

/-- **C8** (amended).  A missing (or, per `classifyReportLines`' own guards,
non-list) field of the external classification is treated exactly as an
explicit empty list — the two objects give identical results on every input —
and the function is total; but a present classification object is *not*
equivalent to an absent one (see the counterexample). -/
theorem C8_theorem (lines : List Str) :
    normalizeReportSections lines (some ⟨none, none, none⟩) =
      normalizeReportSections lines (some ⟨some [], some [], some []⟩) := rfl

/-- **C9** (counterexample).  Feeding the text reconstructed from
`normalizeReportSections`' own output back through it is *not* idempotent: the
worker line `"10 m Rohr"`, having lost its `"AK:"` header, is reclassified as
material on the second pass. -/
theorem C9_counterexample :
    normalizeReportSections ["AK: 10 m Rohr".data] none =
      ⟨[], ["10 m Rohr".data], ["10; m; Rohr".data]⟩ ∧
    normalizeReportSections
        (([] : List Str) ++ ["10 m Rohr".data] ++ ["10; m; Rohr".data]) none =
      ⟨[], [], ["10; m; Rohr".data, "10 m Rohr 10; m; Rohr".data]⟩ ∧
    (⟨[], [], ["10; m; Rohr".data, "10 m Rohr 10; m; Rohr".data]⟩ : Sections) ≠
      ⟨[], ["10 m Rohr".data], ["10; m; Rohr".data]⟩ :=
  ⟨by decide, by decide, by decide⟩

/-- **C9** (amended).  Re-running the engine on its own reconstructed output
is not drift-free in general (see the counterexample); specific outputs are
fixed points, e.g. a single canonical `"qty; unit; desc"` material triple
reproduces itself exactly on a second pass. -/
theorem C9_theorem :
    normalizeReportSections ["10; m; Rohr".data] none =
      ⟨[], [], ["10; m; Rohr".data]⟩ ∧
    normalizeReportSections (([] : List Str) ++ [] ++ ["10; m; Rohr".data]) none =
      ⟨[], [], ["10; m; Rohr".data]⟩ :=
  ⟨by decide, by decide⟩

/-- **C10**.  Every aggregated worker's group is the trimmed group label of the
first contributing entry (in input order) whose trimmed group is nonempty
(`firstGroup`) — once set, a later entry with a different nonempty group never
overwrites it — and its name is the sanitized name of the first contributing
entry; entries whose sanitized display name is empty are dropped entirely: the
aggregation step leaves the map unchanged for them. -/
theorem C10_theorem :
    (∀ (entries : List WorkerEntry), ∀ w ∈ aggregateWorkers entries,
      ∃ k, contribsFrom 0 entries k ≠ [] ∧
        w.group = firstGroup (contribsFrom 0 entries k) ∧
        w.name = firstName (contribsFrom 0 entries k)) ∧
    (∀ (idx : ℕ) (m : AggMap) (e : WorkerEntry),
      sanitizeWorkerDisplayName e.name = [] → aggStep idx m e = m) := by
  constructor
  · intro entries w hw
    obtain ⟨k, hne, hspec⟩ := aggregateWorkers_spec entries w hw
    exact ⟨k, hne, by rw [hspec]; rfl, by rw [hspec]; rfl⟩
  · intro idx m e h
    simp [aggStep, h]

theorem C10_witness :
    ((⟨"Anna Berta".data, "G1".data, 2, true⟩ : AggWorker) ∈
      aggregateWorkers [⟨"G1".data, "Anna Berta".data, some 2, false⟩]) ∧
    (∃ k, contribsFrom 0 [(⟨"G1".data, "Anna Berta".data, some 2, false⟩ : WorkerEntry)] k ≠ [] ∧
      (⟨"Anna Berta".data, "G1".data, 2, true⟩ : AggWorker).group =
        firstGroup (contribsFrom 0
          [(⟨"G1".data, "Anna Berta".data, some 2, false⟩ : WorkerEntry)] k) ∧
      (⟨"Anna Berta".data, "G1".data, 2, true⟩ : AggWorker).name =
        firstName (contribsFrom 0
          [(⟨"G1".data, "Anna Berta".data, some 2, false⟩ : WorkerEntry)] k)) ∧
    sanitizeWorkerDisplayName " ".data = [] ∧
    aggStep 0 [] ⟨"G".data, " ".data, some 1, false⟩ = [] :=
  ⟨by decide, C10_theorem.1 _ _ (by decide), by decide,
   C10_theorem.2 0 [] ⟨"G".data, " ".data, some 1, false⟩ (by decide)⟩

end Report
